import Mathlib

/-!
Verification of the `contextlint` engine of the `agentinit` repository
(`src/agentinit/_contextlint/checks.py`), via a shallow embedding.

Modelling conventions:
* The lint root's file tree is represented by the list of its regular files,
  as repo-relative POSIX path strings paired with their decoded text content
  (`FS`).  Empty directories and symlinks are not representable; a file that
  is listed is readable, a path that is absent behaves like a missing or
  unreadable file (the checks skip it, exactly as the `OSError` handlers do).
* The platform is POSIX (`os.sep = "/"`); text is already decoded
  (`errors="replace"` never fails, so reading yields the stored string).
* Character classes of the regular expressions are modelled over their ASCII
  meaning (`\w = [A-Za-z0-9_]`, `\s = [ \t\n\r\v\f]`, lower-casing for
  `re.IGNORECASE` is ASCII lower-casing).
* Machine integers do not occur: Python integers are unbounded, so `Int` and
  `Nat` are exact models.
-/

/-! ## Python string primitives -/

/-- The characters `str.splitlines` treats as line boundaries. -/
def pyIsLineBreak (c : Char) : Bool :=
  c = '\n' || c = '\r' || c = '\x0b' || c = '\x0c' ||
  c = '\x1c' || c = '\x1d' || c = '\x1e' || c = '\x85' ||
  c = '\u2028' || c = '\u2029'

/-- Worker for `str.splitlines`: `acc` holds the current line reversed. -/
def splitlinesAux : List Char → List Char → List (List Char)
  | [], acc => if acc.isEmpty then [] else [acc.reverse]
  | '\r' :: '\n' :: rest, acc => acc.reverse :: splitlinesAux rest []
  | c :: rest, acc =>
      if pyIsLineBreak c then acc.reverse :: splitlinesAux rest []
      else splitlinesAux rest (c :: acc)

/-- Python `str.splitlines()` (no terminator kept, trailing newline yields no
empty final line). -/
def pySplitlines (s : String) : List (List Char) :=
  splitlinesAux s.data []

/-- `len(text.splitlines())`, the line count used by every check. -/
def lineCount (s : String) : Nat :=
  (pySplitlines s).length

/-- Python whitespace for `str.strip()` / the regex class `\s` (ASCII part). -/
def pyIsSpace (c : Char) : Bool :=
  c = ' ' || c = '\t' || c = '\n' || c = '\r' || c = '\x0b' || c = '\x0c'

/-- Python `line.strip()` on a single line. -/
def pyStrip (cs : List Char) : List Char :=
  ((cs.dropWhile pyIsSpace).reverse.dropWhile pyIsSpace).reverse

/-- ASCII `[A-Za-z0-9]`, the alphanumerics of the source's regexes. -/
def isAlnumA (c : Char) : Bool :=
  ('A' ≤ c && c ≤ 'Z') || ('a' ≤ c && c ≤ 'z') || ('0' ≤ c && c ≤ '9')

/-- The regex class `\w` (ASCII). -/
def isWordChar (c : Char) : Bool :=
  isAlnumA c || c = '_'

/-- ASCII lower-casing, the model of `re.IGNORECASE` folding. -/
def lowerA (c : Char) : Char :=
  if 'A' ≤ c && c ≤ 'Z' then Char.ofNat (c.toNat + 32) else c

/-- Substring search on character lists. -/
def listHasSub : List Char → List Char → Bool
  | n, [] => n.isEmpty
  | n, c :: h => n.isPrefixOf (c :: h) || listHasSub n h

/-- Case-insensitive substring test (`re.search` of a literal with
`re.IGNORECASE`). -/
def containsCI (needle : String) (hay : String) : Bool :=
  listHasSub (needle.data.map lowerA) (hay.data.map lowerA)

/-- Case-sensitive substring test on decoded text. -/
def containsSub (needle : String) (hay : String) : Bool :=
  listHasSub needle.data hay.data

/-- A single ASCII apostrophe, used to rebuild Python message literals. -/
def squote : String := (Char.ofNat 39).toString

/-! ## The file-system model -/

/-- The lint root's regular files: repo-relative POSIX path ↦ decoded text.
The first binding of a path is the file's content (real trees have unique
paths; theorems that need it assume `Nodup` of the key list). -/
structure FS where
  files : List (String × String)
deriving Repr, DecidableEq

/-- All stored paths, in storage order. -/
def FS.paths (fs : FS) : List String :=
  fs.files.map Prod.fst

/-- `Path.is_file` relative to the root. -/
def fsIsFile (fs : FS) (rel : String) : Bool :=
  fs.paths.contains rel

/-- `Path.read_text(..., errors="replace")`: `none` models the `OSError`
branches (missing or unreadable file). -/
def fsRead (fs : FS) (rel : String) : Option String :=
  fs.files.lookup rel

/-- Split on `/` (Python `str.split('/')`); `acc` is the current segment
reversed. -/
def splitSlashAux : List Char → List Char → List String
  | [], acc => [⟨acc.reverse⟩]
  | '/' :: rest, acc => (⟨acc.reverse⟩ : String) :: splitSlashAux rest []
  | c :: rest, acc => splitSlashAux rest (c :: acc)

/-- Split a repo-relative path into its `/`-separated segments
(`Path.relative_to(root).parts`). -/
def pathSegs (p : String) : List String :=
  splitSlashAux p.data []

/-- Python `str.startswith` / string prefix on characters. -/
def strStarts (pre s : String) : Bool :=
  pre.data.isPrefixOf s.data

/-- Lexicographic code-point comparison on character lists (Python `<` on
`str`). -/
def charListLt : List Char → List Char → Bool
  | [], [] => false
  | [], _ :: _ => true
  | _ :: _, [] => false
  | a :: as, b :: bs => a < b || (a = b && charListLt as bs)

/-- Python string `<`. -/
def strLtB (a b : String) : Bool :=
  charListLt a.data b.data

/-- Python string `<=` (total order used by `sorted` / `list.sort`). -/
def strLeB (a b : String) : Bool :=
  !(strLtB b a)

/-- Stable insertion into a sorted list. -/
def insertSortedBy {α : Type} (le : α → α → Bool) (x : α) : List α → List α
  | [] => [x]
  | y :: ys => if le x y then x :: y :: ys else y :: insertSortedBy le x ys

/-- Stable insertion sort — the model of Python `sorted` / `list.sort`
(any comparison sort agrees with it on lists without ties, and every key
list sorted here is duplicate-free). -/
def sortBy {α : Type} (le : α → α → Bool) : List α → List α
  | [] => []
  | x :: xs => insertSortedBy le x (sortBy le xs)

/-! ## Config and diagnostics (`Config`, `Diagnostic`, `LintResult`) -/

/-- `checks.Config` with its dataclass defaults (`SOFT_WARN_LINES = 200`,
`HARD_FAIL_LINES = 300`, `ROUTER_WARN_LINES = 50`).  The Python sets
(`ignore_paths`, `ignore_refs`) are modelled as lists used only through
membership, the dict `per_file_error` as an association list. -/
structure Config where
  default_warn : Int := 200
  default_error : Int := 300
  per_file_error : List (String × Int) := []
  router_warn_lines : Int := 50
  ignore_paths : List String := []
  ignore_refs : List String := []
  extra_globs : List String := []
  disable_default_discovery : Bool := false
deriving Repr, DecidableEq

/-- `checks.Diagnostic`. -/
structure Diagnostic where
  path : String
  message : String
  hard : Bool := false
  lineno : Nat := 0
deriving Repr, DecidableEq

/-- `checks.LintResult`; `file_sizes` is an association list accumulated in
check order (its keys are the discovered files, which are distinct). -/
structure LintResult where
  diagnostics : List Diagnostic := []
  file_sizes : List (String × Nat) := []
deriving Repr, DecidableEq

/-- `LintResult.has_hard`. -/
def LintResult.has_hard (r : LintResult) : Bool :=
  r.diagnostics.any (·.hard)

/-! ## Check 1 — line budget (`_check_line_budget`) -/

/-- `config.per_file_error.get(rel, config.default_error)`. -/
def error_limit (cfg : Config) (rel : String) : Int :=
  match cfg.per_file_error.lookup rel with
  | some v => v
  | none => cfg.default_error

/-- `rel.startswith("docs/") or rel.startswith("docs" + os.sep)` (POSIX). -/
def in_docs (rel : String) : Bool :=
  strStarts "docs/" rel

/-- The diagnostics `_check_line_budget` appends for one file of `count`
lines with hot flag `hot`. -/
def budgetDiags (cfg : Config) (hot : Bool) (rel : String) (count : Nat) :
    List Diagnostic :=
  let limit := error_limit cfg rel
  if hot = true ∧ (count : Int) ≥ limit then
    [⟨rel, toString count ++ " lines (hard limit is " ++ toString limit ++ ")",
      true, 0⟩]
  else if (count : Int) ≥ cfg.default_warn then
    if in_docs rel then
      [⟨rel, toString count ++ " lines — consider splitting (docs/ files never fail)",
        false, 0⟩]
    else if hot then
      [⟨rel, toString count ++ " lines (soft warn at " ++
        toString cfg.default_warn ++ ")", false, 0⟩]
    else
      [⟨rel, toString count ++ " lines — consider trimming", false, 0⟩]
  else []

/-- `_check_line_budget`: returns the appended diagnostics and the
`file_sizes` entries, in file order.  An unreadable file is skipped. -/
def _check_line_budget (fs : FS) (files : List String) (hot_rels : List String)
    (cfg : Config) : List Diagnostic × List (String × Nat) :=
  files.foldl
    (fun acc rel =>
      match fsRead fs rel with
      | none => acc
      | some content =>
          let count := lineCount content
          (acc.1 ++ budgetDiags cfg (hot_rels.contains rel) rel count,
           acc.2 ++ [(rel, count)]))
    ([], [])

/-! ## `fnmatch` and `pathlib` glob matching -/

/-- Membership in a bracket-class body, interpreting `x-y` ranges as in
`fnmatch.translate` (a reversed range matches nothing). -/
def classBodyMatch : List Char → Char → Bool
  | [], _ => false
  | [a], c => a = c
  | [a, b], c => a = c || b = c
  | a :: '-' :: b :: rest, c => (a ≤ c && c ≤ b) || classBodyMatch rest c
  | a :: rest, c => a = c || classBodyMatch rest c

/-- Parse a bracket class, `s` being the characters after the opening `[`:
negation flag, class body, and the number of pattern characters consumed
(through the closing `]`).  `none` when the class is unterminated, in which
case `fnmatch` treats `[` as a literal. -/
def classParse (s : List Char) : Option (Bool × List Char × Nat) :=
  let neg : Bool := match s with | '!' :: _ => true | _ => false
  let s1 := if neg then s.drop 1 else s
  let lead : Bool := match s1 with | ']' :: _ => true | _ => false
  let s2 := if lead then s1.drop 1 else s1
  let body := s2.takeWhile (fun c => c ≠ ']')
  if body.length < s2.length then
    some (neg, (if lead then [']'] else []) ++ body,
      (if neg then 1 else 0) + (if lead then 1 else 0) + body.length + 1)
  else none

/-- `fnmatch.fnmatchcase(text, pattern)` on character lists (POSIX
`normcase` is the identity): `*` matches any run, `?` one character, and
bracket classes as parsed by `classParse`. -/
def fnmatchGo : Nat → List Char → List Char → Bool
  | 0, _, _ => false
  | _ + 1, [], t => t.isEmpty
  | fuel + 1, '*' :: p, t =>
      fnmatchGo fuel p t ||
        (match t with
         | [] => false
         | _ :: t2 => fnmatchGo fuel ('*' :: p) t2)
  | fuel + 1, '?' :: p, t =>
      (match t with
       | [] => false
       | _ :: t2 => fnmatchGo fuel p t2)
  | fuel + 1, '[' :: p, t =>
      (match classParse p with
       | some (neg, body, consumed) =>
           (match t with
            | [] => false
            | c2 :: t2 =>
                (classBodyMatch body c2 != neg) && fnmatchGo fuel (p.drop consumed) t2)
       | none =>
           (match t with
            | [] => false
            | c2 :: t2 => (c2 = '[') && fnmatchGo fuel p t2))
  | fuel + 1, c :: p, t =>
      (match t with
       | [] => false
       | c2 :: t2 => (c2 = c) && fnmatchGo fuel p t2)

/-- `fnmatch.fnmatchcase(text, pattern)` on character lists (POSIX
`normcase` is the identity): `*` matches any run, `?` one character, and
bracket classes as parsed by `classParse`.  The fuel only bounds the
recursion; each recursive step shortens `pattern ++ text` by at least one
character, so `|pattern| + |text| + 1` can never run out. -/
def fnmatchL (p t : List Char) : Bool :=
  fnmatchGo (p.length + t.length + 1) p t

/-- `fnmatch.fnmatch(name, pat)` (POSIX: no case folding). -/
def fnmatchStr (pat name : String) : Bool :=
  fnmatchL pat.data name.data

/-- `_is_ignored`: the repo-relative POSIX path matches some ignore
pattern. -/
def _is_ignored (rel : String) (ignore_paths : List String) : Bool :=
  ignore_paths.any (fun pat => fnmatchStr pat rel)

/-- `PurePath.glob` component matching: `**` (a whole component) matches any
run of segments, other components match one segment by `fnmatch`.  (In
Python a component merely containing `**` raises `ValueError`; such patterns
are matched here componentwise, and `**` follows the semantics where it may
also cover the final name component.) -/
def globSegsGo : Nat → List String → List String → Bool
  | 0, _, _ => false
  | _ + 1, [], segs => segs.isEmpty
  | fuel + 1, "**" :: ps, segs =>
      globSegsGo fuel ps segs ||
        (match segs with
         | [] => false
         | _ :: s2 => globSegsGo fuel ("**" :: ps) s2)
  | fuel + 1, p :: ps, segs =>
      (match segs with
       | [] => false
       | s :: s2 => fnmatchStr p s && globSegsGo fuel ps s2)

/-- `PurePath.glob` component matching: `**` (a whole component) matches any
run of segments, other components match one segment by `fnmatch`.  (In
Python a component merely containing `**` raises `ValueError`; such patterns
are matched here componentwise, and `**` follows the semantics where it may
also cover the final name component.)  As above, the fuel cannot run out. -/
def globSegsMatch (ps segs : List String) : Bool :=
  globSegsGo (ps.length + segs.length + 1) ps segs

/-- `root.glob(pattern)` membership for a repo-relative file path. -/
def globMatchStr (pattern p : String) : Bool :=
  globSegsMatch (pathSegs pattern) (pathSegs p)

/-! ## Discovery (`_discover_context_files`) -/

/-- `ALWAYS_HOT_FILES`. -/
def ALWAYS_HOT_FILES : List String :=
  [".cursorrules", ".github/copilot-instructions.md", ".windsurfrules",
   "AGENTS.md", "CLAUDE.md", "GEMINI.md", "codex.md", "opencode.md"]

/-- `ALWAYS_HOT_GLOBS`. -/
def ALWAYS_HOT_GLOBS : List String :=
  [".claude/rules/**/*.md", ".cursor/rules/**/*.mdc",
   ".windsurf/rules/**/*.md", ".windsurf/rules/**/*.mdc"]

/-- `_EXCLUDE_DIRS`. -/
def _EXCLUDE_DIRS : List String :=
  [".git", "node_modules", "dist", "build", ".venv", "venv", "__pycache__"]

/-- `any(part in _EXCLUDE_DIRS for part in parts[:-1])`. -/
def excludedByDir (p : String) : Bool :=
  ((pathSegs p).dropLast).any (fun s => _EXCLUDE_DIRS.contains s)

/-- `_iter_glob(root, pattern)`: the stored regular files matching the
pattern, minus those under an excluded directory.  (Python sorts the glob
results; every consumer is insensitive to this order — the found list is
re-sorted and the hot set is a set — so storage order is kept.) -/
def _iter_glob (fs : FS) (pattern : String) : List String :=
  fs.paths.filter (fun p => globMatchStr pattern p && !excludedByDir p)

/-- The mutable discovery state: `seen`/`found` (deduplicated, in first-seen
order) and the hot set. -/
structure DiscoverSt where
  seen : List String
  found : List String
  hot_rels : List String
deriving Repr, DecidableEq

/-- The inner `_add(p, hot)` closure of `_discover_context_files`
(`_rel(p, root)` is the path itself; the `ValueError` branch cannot occur
for files under the root). -/
def discAdd (st : DiscoverSt) (p : String) (hot : Bool) : DiscoverSt :=
  let st1 :=
    if st.seen.contains p then st
    else { st with seen := st.seen ++ [p], found := st.found ++ [p] }
  if hot then
    { st1 with hot_rels :=
        if st1.hot_rels.contains p then st1.hot_rels else st1.hot_rels ++ [p] }
  else st1

/-- `docs_dir.is_dir()` in the files-only model: some file lies under
`docs/` (an empty `docs` directory is not representable, which leaves every
check's output unchanged since the glob below would contribute nothing). -/
def hasDocsDir (fs : FS) : Bool :=
  fs.paths.any (fun p => strStarts "docs/" p)

/-- `_discover_context_files(root, config)` → `(files, hot_rels)`. -/
def _discover_context_files (fs : FS) (cfg : Config) :
    List String × List String :=
  let st0 : DiscoverSt := ⟨[], [], []⟩
  let st1 :=
    if cfg.disable_default_discovery then st0
    else
      let stA := ALWAYS_HOT_FILES.foldl
        (fun st name => if fsIsFile fs name then discAdd st name true else st) st0
      let stB := ALWAYS_HOT_GLOBS.foldl
        (fun st pat => (_iter_glob fs pat).foldl (fun st2 f => discAdd st2 f true) st)
        stA
      if hasDocsDir fs then
        (_iter_glob fs "docs/**/*.md").foldl (fun st2 f => discAdd st2 f false) stB
      else stB
  let st2 := cfg.extra_globs.foldl
    (fun st pat => (_iter_glob fs pat).foldl (fun st2 f => discAdd st2 f false) st)
    st1
  let sortedFound := sortBy strLeB st2.found
  if cfg.ignore_paths ≠ [] then
    (sortedFound.filter (fun f => !(_is_ignored f cfg.ignore_paths)),
     st2.hot_rels.filter (fun r => !(_is_ignored r cfg.ignore_paths)))
  else (sortedFound, st2.hot_rels)

/-! ## Check 2 — broken references (`_check_refs_in_file`) -/

/-- `_looks_like_path`: contains a slash, or ends in `.` plus one to six
word characters (`re.search` of `\.\w{1,6}$`). -/
def _looks_like_path (s : List Char) : Bool :=
  s.contains '/' ||
    (let wrun := s.reverse.takeWhile isWordChar
     decide (1 ≤ wrun.length) && decide (wrun.length ≤ 6) &&
       ((s.reverse.drop wrun.length).head? == some '.'))

/-- `_MD_LINK_RE = \[.*?\]` then `\(([^)]+)\)`: attempt the part of a match
after its opening `[`.  The lazy `.*?` grows until `](` follows and the
greedy non-empty `[^)]+` reaches a `)`.  Returns the captured group and how
many characters of the input the match consumed. -/
def mdTryAt : List Char → Option (List Char × Nat)
  | [] => none
  | ']' :: rest =>
      ((match rest with
        | '(' :: t =>
            let g := t.takeWhile (fun c => c ≠ ')')
            if 1 ≤ g.length ∧ g.length < t.length then
              some (g, g.length + 3)
            else none
        | _ => none) : Option (List Char × Nat)).orElse
        (fun _ => (mdTryAt rest).map (fun r => (r.1, r.2 + 1)))
  | _ :: s2 => (mdTryAt s2).map (fun r => (r.1, r.2 + 1))

def mdLinkGo : Nat → List Char → List (List Char)
  | 0, _ => []
  | _ + 1, [] => []
  | fuel + 1, '[' :: s =>
      (match mdTryAt s with
       | some (g, consumed) => g :: mdLinkGo fuel (s.drop consumed)
       | none => mdLinkGo fuel s)
  | fuel + 1, _ :: s => mdLinkGo fuel s

/-- `finditer` of `_MD_LINK_RE` over one line: the captured groups of the
non-overlapping matches, left to right.  Each step consumes at least one
character, so the fuel cannot run out. -/
def mdLinkRefs (line : List Char) : List (List Char) :=
  mdLinkGo (line.length + 1) line

/-- The token class of `_AT_IMPORT_RE`: `\w` plus dot, slash, dash. -/
def atTokenChar (c : Char) : Bool :=
  isWordChar c || c = '.' || c = '/' || c = '-'

/-- `finditer` of `_AT_IMPORT_RE` (an `@` not preceded by `[A-Za-z0-9]`,
capturing a non-empty run of `atTokenChar`): the `@`
must not be preceded by an ASCII alphanumeric (`prevAl` tracks whether the
previous character was one; a match resumes scanning after its last
character). -/
def atImportGo : Nat → List Char → Bool → List (List Char)
  | 0, _, _ => []
  | _ + 1, [], _ => []
  | fuel + 1, c :: s, prevAl =>
      if c = '@' ∧ prevAl = false then
        let g := s.takeWhile atTokenChar
        if g.length = 0 then atImportGo fuel s false
        else g :: atImportGo fuel (s.drop g.length) (isAlnumA (g.getLastD ' '))
      else atImportGo fuel s (isAlnumA c)

/-- Worker of `_AT_IMPORT_RE` scanning with fuel (which, consuming at least
one character per step, cannot run out). -/
def atImportAux (line : List Char) (prevAl : Bool) : List (List Char) :=
  atImportGo (line.length + 1) line prevAl

/-- `_AT_IMPORT_RE` candidates of a line, before the `_looks_like_path`
filter. -/
def atImportRefs (line : List Char) : List (List Char) :=
  atImportAux line false

/-- Character class `[\s\-*_>` ++ "`" ++ `]` heading
`_STANDALONE_PATH_RE`. -/
def saLeadChar (c : Char) : Bool :=
  pyIsSpace c || c = '-' || c = '*' || c = '_' || c = '>' || c = '\x60'

/-- Character class `[` ++ "`" ++ `*_]` of `_STANDALONE_PATH_RE`. -/
def saMarkChar (c : Char) : Bool :=
  c = '\x60' || c = '*' || c = '_'

/-- Character class `[A-Za-z0-9_\-./]` of the captured group. -/
def saPathChar (c : Char) : Bool :=
  isAlnumA c || c = '_' || c = '-' || c = '.' || c = '/'

/-- After the captured group, the rest of the line must match
`[` ++ "`" ++ `*_]*[\s]*$`: a run of emphasis markers then whitespace. -/
def saTailOk (s : List Char) : Bool :=
  (s.dropWhile saMarkChar).all pyIsSpace

/-- Greedy `[A-Za-z0-9_\-./]+` with backtracking: the largest `g ≥ 1` not
exceeding `gmax` whose remainder satisfies `saTailOk`. -/
def saTryLen : Nat → List Char → Option Nat
  | 0, _ => none
  | g + 1, s2 => if saTailOk (s2.drop (g + 1)) then some (g + 1) else saTryLen g s2

/-- Try the captured group `\.{0,2}/?[A-Za-z0-9_\-./]+` at `s` (after the
leading classes), enumerating the dot count and optional slash greedily with
backtracking; returns the captured group. -/
def saTryGroup (s : List Char) : Option (List Char) :=
  let dots : List Nat :=
    match s with
    | '.' :: '.' :: _ => [2, 1, 0]
    | '.' :: _ => [1, 0]
    | _ => [0]
  dots.firstM (fun d =>
    let s1 := s.drop d
    let slashes : List Nat := match s1 with | '/' :: _ => [1, 0] | _ => [0]
    slashes.firstM (fun sl =>
      let s2 := s1.drop sl
      (saTryLen (s2.takeWhile saPathChar).length s2).map
        (fun g => s.take d ++ s1.take sl ++ s2.take g)))

/-- `_STANDALONE_PATH_RE.match(line)`: anchored match with the two leading
greedy classes backtracking from their maximal runs (the backtracking order
is the regex engine's: later choice points first).  Returns `group(1)`. -/
def saMatch (line : List Char) : Option (List Char) :=
  let amax := (line.takeWhile saLeadChar).length
  (List.range (amax + 1)).firstM (fun ai =>
    let a := amax - ai
    let sA := line.drop a
    let bmax := (sA.takeWhile saMarkChar).length
    (List.range (bmax + 1)).firstM (fun bi =>
      saTryGroup (sA.drop (bmax - bi))))

/-- The bare standalone-path candidate of a line (already filtered by
`_looks_like_path` in the source). -/
def standaloneRefs (line : List Char) : List (List Char) :=
  match saMatch line with
  | some g => if _looks_like_path g then [g] else []
  | none => []

/-- All raw candidates of one line, in extraction order: Markdown links,
filtered `@`-imports, then the standalone path. -/
def lineRefs (line : List Char) : List String :=
  (mdLinkRefs line).map (fun l => ⟨l⟩) ++
  ((atImportRefs line).filter _looks_like_path).map (fun l => ⟨l⟩) ++
  (standaloneRefs line).map (fun l => ⟨l⟩)

/-- `ref.split("#")[0]`: strip the anchor. -/
def stripFrag (ref : String) : String :=
  ⟨ref.data.takeWhile (fun c => c ≠ '#')⟩

/-- `_SKIP_RE.match(ref)`: scheme-like references are skipped. -/
def skipRef (ref : String) : Bool :=
  strStarts "http://" ref || strStarts "https://" ref ||
  strStarts "mailto:" ref || strStarts "#" ref

/-- `PurePath` component parsing: `.` and empty components are dropped,
`..` is kept; the Bool is `is_absolute`. -/
def parseRefPath (ref : String) : Bool × List String :=
  (strStarts "/" ref,
   (pathSegs ref).filter (fun s => s ≠ "" ∧ s ≠ "."))

/-- `Path(ref).name`: the last parsed component unless it is empty. -/
def pyPathName (ref : String) : String :=
  ((parseRefPath ref).2).getLastD ""

/-- `Path.resolve()` on an absolute segment list without symlinks: `..` pops
(a no-op at the filesystem root, as on POSIX). -/
def normSegs (segs : List String) : List String :=
  segs.foldl (fun acc s => if s = ".." then acc.dropLast else acc ++ [s]) []

/-- `(root / ref).resolve()` as absolute segments: an absolute `ref`
replaces `root` in the join (pathlib `/` semantics). -/
def resolveRef (root : List String) (ref : String) : List String :=
  let pr := parseRefPath ref
  normSegs ((if pr.1 then [] else root) ++ pr.2)

/-- `target.exists()` for a target inside the root, given as root-relative
segments: the root itself, a stored file, or an ancestor directory of a
stored file. -/
def existsTarget (fs : FS) (relSegs : List String) : Bool :=
  relSegs.isEmpty || fs.paths.any (fun p => relSegs.isPrefixOf (pathSegs p))

/-- The broken-reference diagnostic. -/
def brokenRefDiag (rel ref : String) (ln : Nat) : Diagnostic :=
  ⟨rel, "broken ref → " ++ ref, true, ln⟩

/-- The escaping-reference diagnostic (soft). -/
def escapeRefDiag (rel ref : String) (ln : Nat) : Diagnostic :=
  ⟨rel, "ref " ++ squote ++ ref ++ squote ++ " escapes repo root — ignored",
   false, ln⟩

/-- The per-file mutable state of `_check_refs_in_file`: the `seen` set and
the appended diagnostics. -/
structure RefSt where
  seen : List String
  diags : List Diagnostic
deriving Repr, DecidableEq

/-- The filters a raw candidate passes before the `seen` test: strip the
anchor, drop empty, scheme-like and ignored references; returns the
stripped reference that will be validated. -/
def survRef (cfg : Config) (ref0 : String) : Option String :=
  let ref := stripFrag ref0
  if ref = "" then none
  else if skipRef ref then none
  else if cfg.ignore_refs.contains ref || cfg.ignore_refs.contains (pyPathName ref) then none
  else some ref

/-- The diagnostics the validation of one reference appends: resolve
against the root, report an escape softly, a missing in-root target
hard. -/
def refDiagFor (root : List String) (fs : FS) (rel_name : String)
    (lineno : Nat) (ref : String) : List Diagnostic :=
  let resolved := resolveRef root ref
  if root.isPrefixOf resolved then
    if existsTarget fs (resolved.drop root.length) then []
    else [brokenRefDiag rel_name ref lineno]
  else [escapeRefDiag rel_name ref lineno]

/-- The body of the `for ref in refs` loop of `_check_refs_in_file` for one
raw candidate. -/
def processRef (root : List String) (fs : FS) (rel_name : String)
    (cfg : Config) (lineno : Nat) (st : RefSt) (ref0 : String) : RefSt :=
  match survRef cfg ref0 with
  | none => st
  | some ref =>
      if st.seen.contains ref then st
      else ⟨st.seen ++ [ref], st.diags ++ refDiagFor root fs rel_name lineno ref⟩

/-- `_check_refs_in_file(root, fpath, rel_name, ...)`: extract candidates
line by line (1-based numbering) and validate each at most once per file. -/
def _check_refs_in_file (root : List String) (fs : FS) (fpath : String)
    (rel_name : String) (cfg : Config) : List Diagnostic :=
  match fsRead fs fpath with
  | none => []
  | some raw =>
      let lines := pySplitlines raw
      (lines.enumFrom 1).foldl
        (fun st li =>
          (lineRefs li.2).foldl (processRef root fs rel_name cfg li.1) st)
        (⟨[], []⟩ : RefSt)
      |>.diags

/-- `_check_broken_refs`: run the per-file check over every discovered file
(`rel_name = _rel(fpath, root)` is the path itself). -/
def _check_broken_refs (root : List String) (fs : FS) (files : List String)
    (cfg : Config) : List Diagnostic :=
  files.foldl (fun acc f => acc ++ _check_refs_in_file root fs f f cfg) []

/-! ## Check 3 — router sanity (`_check_router_sanity`) -/

/-- `sorted(ROUTER_FILES)`. -/
def ROUTER_FILES_SORTED : List String := ["CLAUDE.md", "GEMINI.md"]

/-- `_POINTER_RE.search(text)`: the pattern `(AGENTS\.md|docs/)` is compiled
with `re.IGNORECASE`, so BOTH alternatives match case-insensitively. -/
def pointerFound (text : String) : Bool :=
  containsCI "AGENTS.md" text || containsCI "docs/" text

/-- The missing-pointer router diagnostic for `name`. -/
def routerPointerDiag (name : String) : Diagnostic :=
  ⟨name, "no pointer to AGENTS.md or docs/ — add one", false, 0⟩

/-- The over-length router diagnostic for `name` with `count` lines. -/
def routerLongDiag (cfg : Config) (name : String) (count : Nat) : Diagnostic :=
  ⟨name, toString count ++ " lines — router files should be short (<=" ++
    toString cfg.router_warn_lines ++ ")", false, 0⟩

/-- `_check_router_sanity`: reads each router file straight from the root
(not from the discovered list). -/
def _check_router_sanity (fs : FS) (cfg : Config) : List Diagnostic :=
  ROUTER_FILES_SORTED.foldl
    (fun acc name =>
      match fsRead fs name with
      | none => acc
      | some text =>
          let count := lineCount text
          let acc1 :=
            if (count : Int) > cfg.router_warn_lines then
              acc ++ [routerLongDiag cfg name count]
            else acc
          if pointerFound text then acc1
          else acc1 ++ [routerPointerDiag name])
    []

/-! ## Check 4 — duplicate blocks (`_check_duplicates`) -/

/-- `_DUP_MIN_LINES`. -/
def _DUP_MIN_LINES : Nat := 4

/-- The normalised line sequence: (1-based original line number, stripped
content) for every non-blank line. -/
def normLines (raw : String) : List (Nat × String) :=
  ((pySplitlines raw).enumFrom 1).filterMap
    (fun li =>
      let t := pyStrip li.2
      if t.isEmpty then none else some (li.1, (⟨t⟩ : String)))

/-- All sliding windows of `_DUP_MIN_LINES` normalised lines:
(starting original line number, fingerprint). -/
def fileWindows (raw : String) : List (Nat × String) :=
  let norm := normLines raw
  if norm.length < _DUP_MIN_LINES then []
  else
    (List.range (norm.length - _DUP_MIN_LINES + 1)).map
      (fun i =>
        (((norm.drop i).headD (0, "")).1,
         String.intercalate "\n" (((norm.drop i).take _DUP_MIN_LINES).map Prod.snd)))

/-- The `file_windows` dict, in file order.  A file that cannot be read or
has fewer than `_DUP_MIN_LINES` normalised lines gets no entry; a repeated
path would be re-assigned the identical value in Python, modelled by
skipping it. -/
def fileWindowsMap (fs : FS) (files : List String) :
    List (String × List (Nat × String)) :=
  files.foldl
    (fun acc rel =>
      match fsRead fs rel with
      | none => acc
      | some raw =>
          if (normLines raw).length < _DUP_MIN_LINES then acc
          else if (acc.map Prod.fst).contains rel then acc
          else acc ++ [(rel, fileWindows raw)])
    []

/-- `fp_to_locs.setdefault(fp, []).append(loc)` on an association list with
unique keys. -/
def dictAppend (m : List (String × List (String × Nat))) (fp : String)
    (loc : String × Nat) : List (String × List (String × Nat)) :=
  if (m.map Prod.fst).contains fp then
    m.map (fun kv => if kv.1 = fp then (kv.1, kv.2 ++ [loc]) else kv)
  else m ++ [(fp, [loc])]

/-- The inverted index `fp_to_locs`: fingerprint ↦ list of (file, first
occurrence line in that file), each file contributing at most one entry per
fingerprint (the per-file `emitted` set). -/
def fpToLocs (fwm : List (String × List (Nat × String))) :
    List (String × List (String × Nat)) :=
  fwm.foldl
    (fun m rw =>
      (rw.2.foldl
        (fun st w =>
          if st.1.contains w.2 then st
          else (st.1 ++ [w.2], dictAppend st.2 w.2 (rw.1, w.1)))
        (([] : List String), m)).2)
    []

/-- A `frozenset` of paths in canonical form: deduplicated and sorted. -/
def canonSet (l : List String) : List String :=
  sortBy strLeB l.dedup

/-- `first[f]`: the minimum line number among the locations of `f` for one
fingerprint (0 if absent, which cannot occur for members of the set). -/
def firstLoc (locs : List (String × Nat)) (f : String) : Nat :=
  match locs.filterMap (fun l => if l.1 = f then some l.2 else none) with
  | [] => 0
  | x :: xs => xs.foldl min x

/-- The diagnostic reported for one fingerprint's location list. -/
def dupDiagOf (fset : List String) (locs : List (String × Nat)) : Diagnostic :=
  match fset with
  | [] => ⟨"", "", false, 0⟩
  | primary :: others =>
      ⟨primary,
       "duplicate block found also in " ++
         String.intercalate ", "
           (others.map (fun f => f ++ ":" ++ toString (firstLoc locs f))) ++
         " — consider consolidating",
       false, firstLoc locs primary⟩

/-- `_check_duplicates`: iterate the fingerprints in sorted order, reporting
each distinct sharing file-set once. -/
def _check_duplicates (fs : FS) (files : List String) : List Diagnostic :=
  let sortedFps :=
    sortBy (fun a b => strLeB a.1 b.1) (fpToLocs (fileWindowsMap fs files))
  (sortedFps.foldl
    (fun st kv =>
      let fset := canonSet (kv.2.map Prod.fst)
      if fset.length < 2 then st
      else if st.1.contains fset then st
      else (st.1 ++ [fset], st.2 ++ [dupDiagOf fset kv.2]))
    (([] : List (List String)), ([] : List Diagnostic))).2

/-! ## Public entry point (`run_checks`) -/

/-- `run_checks(root, config, check_dup)`: `root` is the resolved absolute
root as segments (used only for reference resolution), `cfg` the explicit
config (`None` merely loads one). -/
def run_checks (root : List String) (fs : FS) (cfg : Config)
    (check_dup : Bool) : LintResult :=
  let fh := _discover_context_files fs cfg
  let bd := _check_line_budget fs fh.1 fh.2 cfg
  let rd := _check_broken_refs root fs fh.1 cfg
  let sd := _check_router_sanity fs cfg
  let dd := if check_dup then _check_duplicates fs fh.1 else []
  ⟨bd.1 ++ rd ++ sd ++ dd, bd.2⟩

/-! ## Configuration loader (`load_config`) -/

/-- Decoded JSON values.  `json.loads` produces dicts (possibly built from
duplicate keys — the last value wins), lists, strings, ints, floats, bools
and `None`.  A float is carried as its `int()` truncation plus a non-zero
flag (its only uses here); non-finite floats are not modelled. -/
inductive Json where
  | null
  | bool (b : Bool)
  | int (n : Int)
  | float (trunc : Int) (nonzero : Bool)
  | str (s : String)
  | arr (xs : List Json)
  | obj (kvs : List (String × Json))

/-- Python exceptions that the loader's conversions can raise. -/
inductive PyErr where
  | typeError
  | valueError
deriving Repr, DecidableEq

/-- `dict.get` on a JSON object (duplicate keys: last one wins). -/
def jGet (kvs : List (String × Json)) (k : String) : Option Json :=
  kvs.reverse.lookup k

/-- Keep the first occurrence of each element (Python set/dict insertion
order). -/
def dedupKeepFirst (l : List String) : List String :=
  l.foldl (fun acc x => if acc.contains x then acc else acc ++ [x]) []

/-- The digit part of Python `int(str)`: digits with single underscores
between digits (ASCII). -/
def pyIntDigits : List Char → Option Nat
  | [] => none
  | c :: rest =>
      if c.isDigit then pyIntDigitsGo rest (c.toNat - 48) else none
where
  pyIntDigitsGo : List Char → Nat → Option Nat
    | [], acc => some acc
    | '_' :: c :: rest, acc =>
        if c.isDigit then pyIntDigitsGo rest (acc * 10 + (c.toNat - 48)) else none
    | c :: rest, acc =>
        if c.isDigit then pyIntDigitsGo rest (acc * 10 + (c.toNat - 48)) else none

/-- Python `int(s)` for a string: strip whitespace, optional sign, digit
run; otherwise `ValueError`. -/
def pyIntOfStr (s : String) : Except PyErr Int :=
  let t := ((s.data.dropWhile pyIsSpace).reverse.dropWhile pyIsSpace).reverse
  let sgnDigits : Int × List Char :=
    match t with
    | '+' :: r => (1, r)
    | '-' :: r => (-1, r)
    | r => (1, r)
  match pyIntDigits sgnDigits.2 with
  | some n => .ok (sgnDigits.1 * n)
  | none => .error .valueError

/-- Python `int(v)` on a JSON value: ints pass through, bools are 0/1,
floats truncate, strings parse, everything else raises `TypeError`. -/
def pyInt : Json → Except PyErr Int
  | .bool b => .ok (if b then 1 else 0)
  | .int n => .ok n
  | .float t _ => .ok t
  | .str s => pyIntOfStr s
  | _ => .error .typeError

/-- Python truthiness (`bool(v)`). -/
def pyTruthy : Json → Bool
  | .null => false
  | .bool b => b
  | .int n => n ≠ 0
  | .float _ nz => nz
  | .str s => s ≠ ""
  | .arr xs => !xs.isEmpty
  | .obj kvs => !kvs.isEmpty

/-- Python iteration over a JSON value: strings yield their characters,
lists their elements, dicts their keys (first-occurrence order); scalars
raise `TypeError`. -/
def pyIter : Json → Except PyErr (List Json)
  | .str s => .ok (s.data.map (fun c => .str c.toString))
  | .arr xs => .ok xs
  | .obj kvs => .ok ((dedupKeepFirst (kvs.map Prod.fst)).map Json.str)
  | _ => .error .typeError

/-- Hashability: lists and dicts are unhashable. -/
def pyHashable : Json → Bool
  | .arr _ => false
  | .obj _ => false
  | _ => true

/-- The string members of a JSON value (dropping other scalars).  The
Python sets built here may also hold non-string hashable members; such a
member never equals any candidate string and only makes a later `fnmatch`
call raise, so keeping only strings is observationally equivalent for every
property stated in this development. -/
def jStrings (xs : List Json) : List String :=
  xs.filterMap (fun j => match j with | .str s => some s | _ => none)

/-- `set(v)`: iterate, require every element hashable, deduplicate. -/
def pySetStrs (v : Json) : Except PyErr (List String) := do
  let xs ← pyIter v
  if xs.all pyHashable then .ok (dedupKeepFirst (jStrings xs))
  else .error .typeError

/-- `list(v)`: iterate, keep order. -/
def pyListStrs (v : Json) : Except PyErr (List String) := do
  let xs ← pyIter v
  .ok (jStrings xs)

/-- `int(d.get(key, default))`. -/
def pyIntField (kvs : List (String × Json)) (key : String) (dflt : Int) :
    Except PyErr Int :=
  match jGet kvs key with
  | none => .ok dflt
  | some v => pyInt v

/-- The state of the config file as `load_config` observes it: no config
file exists (or the explicit path is not a file), `json.loads` raised, or a
parsed JSON document. -/
inductive ConfigSrc where
  | absent
  | unparseable
  | parsed (j : Json)

/-- `load_config`: `.ok` models a normal return, `.error` a propagated
exception.  Only `json.loads` is guarded by the `try`; the `int()` /
`set()` / `list()` conversions are not. -/
def load_config (src : ConfigSrc) : Except PyErr Config :=
  match src with
  | .absent => .ok {}
  | .unparseable => .ok {}
  | .parsed j =>
      match j with
      | .obj kvs =>
          let keys := kvs.map Prod.fst
          let is_nested := keys.contains "line_budget" || keys.contains "ignore" ||
            keys.contains "discovery"
          if is_nested then do
            let cfg1 : Config ←
              (match (jGet kvs "line_budget").getD (.obj []) with
               | .obj lbk => do
                   let dw ← pyIntField lbk "default_warn" 200
                   let de ← pyIntField lbk "default_error" 300
                   let rw ← pyIntField lbk "router_warn" 50
                   let pf ←
                     (match (jGet lbk "per_file").getD (.obj []) with
                      | .obj pfk =>
                          pfk.mapM (fun kv => do
                            let v ← pyInt kv.2
                            pure (kv.1, v))
                      | _ => pure [])
                   pure { default_warn := dw
                          default_error := de
                          router_warn_lines := rw
                          per_file_error := pf }
               | _ => pure {})
            let cfg2 : Config ←
              (match (jGet kvs "ignore").getD (.obj []) with
               | .obj igk => do
                   let paths ← pySetStrs ((jGet igk "paths").getD (.arr []))
                   let refs ← pySetStrs ((jGet igk "refs").getD (.arr []))
                   let filesLegacy ← pySetStrs ((jGet igk "files").getD (.arr []))
                   pure { cfg1 with
                          ignore_paths := paths ++ filesLegacy
                          ignore_refs := refs }
               | _ => pure cfg1)
            let cfg3 : Config ←
              (match (jGet kvs "discovery").getD (.obj []) with
               | .obj dk => do
                   let eg ← pyListStrs ((jGet dk "extra_globs").getD (.arr []))
                   let dd := pyTruthy ((jGet dk "disable_defaults").getD (.bool false))
                   pure { cfg2 with
                          extra_globs := eg
                          disable_default_discovery := dd }
               | _ => pure cfg2)
            .ok cfg3
          else do
            let dw ← pyIntField kvs "soft_warn_lines" 200
            let de ← pyIntField kvs "hard_fail_lines" 300
            let rw ← pyIntField kvs "router_warn_lines" 50
            let ip ←
              (match (jGet kvs "ignore").getD (.arr []) with
               | .arr xs =>
                   if xs.all pyHashable then pure (dedupKeepFirst (jStrings xs))
                   else .error .typeError
               | _ => pure ([] : List String))
            .ok { default_warn := dw
                  default_error := de
                  router_warn_lines := rw
                  ignore_paths := ip }
      | _ => .ok {}

/-! ## Shapes and predicates used by the statements -/

/-- The hard line-budget diagnostic for `rel` at `count` lines. -/
def budgetHardDiag (cfg : Config) (rel : String) (count : Nat) : Diagnostic :=
  ⟨rel, toString count ++ " lines (hard limit is " ++
    toString (error_limit cfg rel) ++ ")", true, 0⟩

/-- The docs-family soft warning for `rel` at `count` lines. -/
def docsSplitDiag (rel : String) (count : Nat) : Diagnostic :=
  ⟨rel, toString count ++ " lines — consider splitting (docs/ files never fail)",
   false, 0⟩

/-- The reference resolves inside the root but its target does not exist. -/
def refIsBroken (root : List String) (fs : FS) (ref : String) : Prop :=
  root.isPrefixOf (resolveRef root ref) = true ∧
    existsTarget fs ((resolveRef root ref).drop root.length) = false

/-- A path discovered hot: always-hot root file or always-hot glob match
(only reachable when default discovery is enabled). -/
def hotSource (fs : FS) (cfg : Config) (p : String) : Prop :=
  cfg.disable_default_discovery = false ∧
    ((p ∈ ALWAYS_HOT_FILES ∧ fsIsFile fs p = true) ∨
     (∃ pat ∈ ALWAYS_HOT_GLOBS, p ∈ _iter_glob fs pat))

/-- The candidates of one line that survive the filters applied before the
per-file `seen` deduplication (anchor stripped; empty, scheme-like and
ignored references removed). -/
def lineSurvivors (cfg : Config) (line : List Char) : List String :=
  (lineRefs line).filterMap (survRef cfg)

/-- The references a run of the reference loop validates, given the
already-seen set: first occurrences only. -/
def newRefs (seen0 : List String) : List String → List String
  | [] => []
  | r :: rs =>
      if seen0.contains r then newRefs seen0 rs
      else r :: newRefs (seen0 ++ [r]) rs

/-- The (line number, reference) pairs a file validates, in order: per
line, the surviving candidates not seen before. -/
def validatedAux (cfg : Config) (seen : List String) :
    List (Nat × List Char) → List (Nat × String)
  | [] => []
  | nl :: rest =>
      let nr := newRefs seen (lineSurvivors cfg nl.2)
      nr.map (fun r => (nl.1, r)) ++ validatedAux cfg (seen ++ nr) rest

/-- Keep the first occurrence of each element. -/
def dedupFirst {α : Type} [DecidableEq α] (l : List α) : List α :=
  l.foldl (fun acc x => if acc.contains x then acc else acc ++ [x]) []

/-- The fingerprints (in sorted order, with their location lists) that are
shared by at least two distinct files — the spec's "qualifying" blocks. -/
def qualifyingFps (fs : FS) (files : List String) :
    List (String × List (String × Nat)) :=
  (sortBy (fun a b => strLeB a.1 b.1) (fpToLocs (fileWindowsMap fs files))).filter
    (fun kv => 2 ≤ (canonSet (kv.2.map Prod.fst)).length)

/-- Modelled from the spec (§4.6 steps 5–6): one diagnostic per distinct
sharing file-set, taken in sorted fingerprint order; each set's diagnostic
is built from the first qualifying fingerprint shared by exactly that set,
attached to the alphabetically first member at that file's earliest line
for the fingerprint, listing the others as `file:line`. -/
def specDupDiags (fs : FS) (files : List String) : List Diagnostic :=
  let qual := qualifyingFps fs files
  (dedupFirst (qual.map (fun kv => canonSet (kv.2.map Prod.fst)))).map
    (fun S =>
      match qual.find? (fun kv => canonSet (kv.2.map Prod.fst) = S) with
      | some kv => dupDiagOf S kv.2
      | none => ⟨"", "", false, 0⟩)

/-- The duplicate-scan windows of one file: empty for an unreadable file,
otherwise its `fileWindows`. -/
def fsWindowsOf (fs : FS) (rel : String) : List (Nat × String) :=
  match fsRead fs rel with
  | none => []
  | some raw => fileWindows raw

/-- The reporting fold of `_check_duplicates`, written as a recursion over
the sorted fingerprint list: skip non-shared and already-reported file-sets,
report each remaining set once. -/
def dupGo (R : List (List String)) :
    List (String × List (String × Nat)) → List Diagnostic
  | [] => []
  | kv :: l =>
      if (canonSet (kv.2.map Prod.fst)).length < 2 then dupGo R l
      else if R.contains (canonSet (kv.2.map Prod.fst)) then dupGo R l
      else dupDiagOf (canonSet (kv.2.map Prod.fst)) kv.2 ::
        dupGo (R ++ [canonSet (kv.2.map Prod.fst)]) l

/-- `dedupFirst` relative to a set of already-seen elements. -/
def dedupSkip {α : Type} [DecidableEq α] (acc : List α) : List α → List α
  | [] => []
  | x :: l =>
      if acc.contains x then dedupSkip acc l
      else x :: dedupSkip (acc ++ [x]) l

/-- The discovery fold pipeline before sorting and ignore filtering (the
body of `_discover_context_files` up to `found.sort`). -/
def discoverPipeline (fs : FS) (cfg : Config) : DiscoverSt :=
  let st0 : DiscoverSt := ⟨[], [], []⟩
  let st1 :=
    if cfg.disable_default_discovery then st0
    else
      let stA := ALWAYS_HOT_FILES.foldl
        (fun st name => if fsIsFile fs name then discAdd st name true else st) st0
      let stB := ALWAYS_HOT_GLOBS.foldl
        (fun st pat => (_iter_glob fs pat).foldl (fun st2 f => discAdd st2 f true) st)
        stA
      if hasDocsDir fs then
        (_iter_glob fs "docs/**/*.md").foldl (fun st2 f => discAdd st2 f false) stB
      else stB
  cfg.extra_globs.foldl
    (fun st pat => (_iter_glob fs pat).foldl (fun st2 f => discAdd st2 f false) st)
    st1

/-! # Theorems -/

/-! ## Line-budget lemmas -/

theorem check_line_budget_eq (fs : FS) (files : List String)
    (hot_rels : List String) (cfg : Config) :
    _check_line_budget fs files hot_rels cfg =
      (files.flatMap (fun rel =>
         match fsRead fs rel with
         | none => []
         | some c => budgetDiags cfg (hot_rels.contains rel) rel (lineCount c)),
       files.flatMap (fun rel =>
         match fsRead fs rel with
         | none => []
         | some c => [(rel, lineCount c)])) := by
  have h : ∀ (l : List String) (acc : List Diagnostic × List (String × Nat)),
      l.foldl (fun acc rel =>
        match fsRead fs rel with
        | none => acc
        | some content =>
            (acc.1 ++ budgetDiags cfg (hot_rels.contains rel) rel (lineCount content),
             acc.2 ++ [(rel, lineCount content)])) acc =
      (acc.1 ++ l.flatMap (fun rel =>
         match fsRead fs rel with
         | none => []
         | some c => budgetDiags cfg (hot_rels.contains rel) rel (lineCount c)),
       acc.2 ++ l.flatMap (fun rel =>
         match fsRead fs rel with
         | none => []
         | some c => [(rel, lineCount c)])) := by
    intro l
    induction l with
    | nil => intro acc; simp
    | cons x xs ih =>
        intro acc
        simp only [List.foldl_cons, List.flatMap_cons]
        cases hx : fsRead fs x with
        | none =>
            simp only [hx]
            rw [ih]
            simp
        | some c =>
            simp only [hx]
            rw [ih]
            simp [List.append_assoc]
  have h2 := h files ([], [])
  unfold _check_line_budget
  simpa using h2

theorem budgetDiags_mem (cfg : Config) (hot : Bool) (rel : String) (count : Nat)
    (d : Diagnostic) (hd : d ∈ budgetDiags cfg hot rel count) :
    d.path = rel ∧ d.lineno = 0 ∧
      (d.hard = true →
        hot = true ∧ (count : Int) ≥ error_limit cfg rel ∧
          d = budgetHardDiag cfg rel count) := by
  unfold budgetDiags at hd
  by_cases hA : hot = true ∧ (count : Int) ≥ error_limit cfg rel
  · rw [if_pos hA] at hd
    simp only [List.mem_singleton] at hd
    subst hd
    exact ⟨rfl, rfl, fun _ => ⟨hA.1, hA.2, rfl⟩⟩
  · rw [if_neg hA] at hd
    by_cases hB : (count : Int) ≥ cfg.default_warn
    · rw [if_pos hB] at hd
      by_cases hC : in_docs rel = true
      · rw [if_pos hC] at hd
        simp only [List.mem_singleton] at hd
        subst hd
        exact ⟨rfl, rfl, fun hh => by simp at hh⟩
      · rw [if_neg hC] at hd
        by_cases hD : hot = true
        · rw [if_pos hD] at hd
          simp only [List.mem_singleton] at hd
          subst hd
          exact ⟨rfl, rfl, fun hh => by simp at hh⟩
        · rw [if_neg hD] at hd
          simp only [List.mem_singleton] at hd
          subst hd
          exact ⟨rfl, rfl, fun hh => by simp at hh⟩
    · rw [if_neg hB] at hd
      simp at hd

theorem budgetDiags_hard_mem (cfg : Config) (rel : String) (count : Nat)
    (hge : (count : Int) ≥ error_limit cfg rel) :
    budgetHardDiag cfg rel count ∈ budgetDiags cfg true rel count := by
  unfold budgetDiags budgetHardDiag
  simp [hge]

/-- C4: for every configured threshold (default or per-file override), the
line-budget check emits a hard diagnostic for a hot file exactly when its
line count is at least the applicable hard limit. -/
theorem line_budget_hard_iff (fs : FS) (files hot_rels : List String)
    (cfg : Config) (rel content : String)
    (hread : fsRead fs rel = some content) (hmem : rel ∈ files)
    (hhot : hot_rels.contains rel = true) :
    (∃ d ∈ (_check_line_budget fs files hot_rels cfg).1,
        d.path = rel ∧ d.hard = true) ↔
      (lineCount content : Int) ≥ error_limit cfg rel := by
  rw [check_line_budget_eq]
  constructor
  · rintro ⟨d, hd, hpath, hhard⟩
    simp only [List.mem_flatMap] at hd
    obtain ⟨rel2, hrel2, hdmem⟩ := hd
    revert hdmem
    cases hx : fsRead fs rel2 with
    | none => simp
    | some c2 =>
        intro hdmem
        have h1 := budgetDiags_mem _ _ _ _ _ hdmem
        have hrel : rel2 = rel := by rw [← h1.1, hpath]
        subst hrel
        rw [hread] at hx
        cases hx
        exact (h1.2.2 hhard).2.1
  · intro hge
    refine ⟨budgetHardDiag cfg rel (lineCount content), ?_, rfl, rfl⟩
    simp only [List.mem_flatMap]
    refine ⟨rel, hmem, ?_⟩
    rw [hread]
    show budgetHardDiag cfg rel (lineCount content) ∈
      budgetDiags cfg (hot_rels.contains rel) rel (lineCount content)
    rw [hhot]
    exact budgetDiags_hard_mem cfg rel _ hge

/-- C4 witness: with a hard limit of 3, a hot 3-line file yields a hard
diagnostic and the same file one line shorter does not. -/
theorem line_budget_hard_iff_witness :
    (∃ d ∈ (_check_line_budget ⟨[("CLAUDE.md", "a\nb\nc")]⟩ ["CLAUDE.md"]
        ["CLAUDE.md"] { default_error := 3 }).1,
      d.path = "CLAUDE.md" ∧ d.hard = true) ∧
    ¬ (∃ d ∈ (_check_line_budget ⟨[("CLAUDE.md", "a\nb")]⟩ ["CLAUDE.md"]
        ["CLAUDE.md"] { default_error := 3 }).1,
      d.path = "CLAUDE.md" ∧ d.hard = true) := by
  constructor
  · exact (line_budget_hard_iff ⟨[("CLAUDE.md", "a\nb\nc")]⟩ ["CLAUDE.md"]
      ["CLAUDE.md"] { default_error := 3 } "CLAUDE.md" "a\nb\nc"
      (by decide) (by decide) (by decide)).mpr (by decide)
  · intro hex
    have := (line_budget_hard_iff ⟨[("CLAUDE.md", "a\nb")]⟩ ["CLAUDE.md"]
      ["CLAUDE.md"] { default_error := 3 } "CLAUDE.md" "a\nb"
      (by decide) (by decide) (by decide)).mp hex
    revert this
    decide

/-! ## Reference-check lemmas -/

theorem survRef_props (cfg : Config) (ref0 ref : String)
    (h : survRef cfg ref0 = some ref) :
    ref = stripFrag ref0 ∧ ref ≠ "" ∧ skipRef ref = false ∧
      cfg.ignore_refs.contains ref = false ∧
      cfg.ignore_refs.contains (pyPathName ref) = false := by
  unfold survRef at h
  by_cases h1 : stripFrag ref0 = ""
  · rw [if_pos h1] at h
    exact absurd h (by simp)
  · rw [if_neg h1] at h
    by_cases h2 : skipRef (stripFrag ref0) = true
    · rw [if_pos h2] at h
      exact absurd h (by simp)
    · rw [if_neg h2] at h
      by_cases h3 : (cfg.ignore_refs.contains (stripFrag ref0) ||
          cfg.ignore_refs.contains (pyPathName (stripFrag ref0))) = true
      · rw [if_pos h3] at h
        exact absurd h (by simp)
      · rw [if_neg h3] at h
        cases h
        simp only [Bool.or_eq_true, not_or, Bool.not_eq_true] at h3
        refine ⟨rfl, h1, ?_, h3.1, h3.2⟩
        cases hsk : skipRef (stripFrag ref0)
        · rfl
        · exact absurd hsk h2

theorem refDiagFor_mem (root : List String) (fs : FS) (rel : String)
    (ln : Nat) (ref : String) (d : Diagnostic)
    (hd : d ∈ refDiagFor root fs rel ln ref) :
    (d = brokenRefDiag rel ref ln ∧ refIsBroken root fs ref) ∨
      (d = escapeRefDiag rel ref ln ∧
        root.isPrefixOf (resolveRef root ref) = false) := by
  unfold refDiagFor at hd
  by_cases h1 : root.isPrefixOf (resolveRef root ref) = true
  · rw [if_pos h1] at hd
    by_cases h2 : existsTarget fs ((resolveRef root ref).drop root.length) = true
    · rw [if_pos h2] at hd
      exact absurd hd (by simp)
    · rw [if_neg h2] at hd
      simp only [List.mem_singleton] at hd
      refine Or.inl ⟨hd, h1, ?_⟩
      cases hx : existsTarget fs ((resolveRef root ref).drop root.length)
      · rfl
      · exact absurd hx h2
  · rw [if_neg h1] at hd
    simp only [List.mem_singleton] at hd
    refine Or.inr ⟨hd, ?_⟩
    cases hx : root.isPrefixOf (resolveRef root ref)
    · rfl
    · exact absurd hx h1

theorem refs_loop_eq (root : List String) (fs : FS) (rel : String)
    (cfg : Config) (ln : Nat) (refs : List String) :
    ∀ st : RefSt,
      refs.foldl (processRef root fs rel cfg ln) st =
        ⟨st.seen ++ newRefs st.seen (refs.filterMap (survRef cfg)),
         st.diags ++ (newRefs st.seen (refs.filterMap (survRef cfg))).flatMap
           (refDiagFor root fs rel ln)⟩ := by
  induction refs with
  | nil => intro st; simp [newRefs]
  | cons r rs ih =>
      intro st
      simp only [List.foldl_cons, List.filterMap_cons]
      cases hr : survRef cfg r with
      | none =>
          have hpr : processRef root fs rel cfg ln st r = st := by
            unfold processRef; rw [hr]
          rw [hpr, ih st]
      | some ref =>
          by_cases hseen : st.seen.contains ref = true
          · have hpr : processRef root fs rel cfg ln st r = st := by
              unfold processRef
              rw [hr]
              exact if_pos hseen
            have hnr : newRefs st.seen (ref :: rs.filterMap (survRef cfg)) =
                newRefs st.seen (rs.filterMap (survRef cfg)) := by
              simp only [newRefs]
              rw [if_pos hseen]
            rw [hpr, ih st, hnr]
          · have hpr : processRef root fs rel cfg ln st r =
                ⟨st.seen ++ [ref], st.diags ++ refDiagFor root fs rel ln ref⟩ := by
              unfold processRef
              rw [hr]
              exact if_neg hseen
            have hnr : newRefs st.seen (ref :: rs.filterMap (survRef cfg)) =
                ref :: newRefs (st.seen ++ [ref]) (rs.filterMap (survRef cfg)) := by
              simp only [newRefs]
              rw [if_neg hseen]
            rw [hpr, ih ⟨st.seen ++ [ref], st.diags ++ refDiagFor root fs rel ln ref⟩, hnr]
            simp [List.append_assoc]

theorem refs_lines_eq (root : List String) (fs : FS) (rel : String)
    (cfg : Config) (ls : List (Nat × List Char)) :
    ∀ st : RefSt,
      ls.foldl (fun st li => (lineRefs li.2).foldl
          (processRef root fs rel cfg li.1) st) st =
        ⟨st.seen ++ (validatedAux cfg st.seen ls).map Prod.snd,
         st.diags ++ (validatedAux cfg st.seen ls).flatMap
           (fun p => refDiagFor root fs rel p.1 p.2)⟩ := by
  induction ls with
  | nil => intro st; simp [validatedAux]
  | cons nl rest ih =>
      intro st
      simp only [List.foldl_cons]
      rw [refs_loop_eq]
      have hls : List.filterMap (survRef cfg) (lineRefs nl.2) =
          lineSurvivors cfg nl.2 := rfl
      rw [hls]
      rw [ih ⟨st.seen ++ newRefs st.seen (lineSurvivors cfg nl.2),
             st.diags ++ (newRefs st.seen (lineSurvivors cfg nl.2)).flatMap
               (refDiagFor root fs rel nl.1)⟩]
      simp only [validatedAux, RefSt.mk.injEq]
      constructor
      · simp [List.map_map, Function.comp, List.append_assoc]
      · simp [List.flatMap_append, List.flatMap, List.map_map, Function.comp_def,
          List.append_assoc]

theorem check_refs_in_file_eq (root : List String) (fs : FS)
    (fpath rel : String) (cfg : Config) (raw : String)
    (hread : fsRead fs fpath = some raw) :
    _check_refs_in_file root fs fpath rel cfg =
      (validatedAux cfg [] ((pySplitlines raw).enumFrom 1)).flatMap
        (fun p => refDiagFor root fs rel p.1 p.2) := by
  unfold _check_refs_in_file
  rw [hread]
  show (((pySplitlines raw).enumFrom 1).foldl
      (fun st li => (lineRefs li.2).foldl (processRef root fs rel cfg li.1) st)
      ⟨[], []⟩).diags = _
  rw [refs_lines_eq]
  simp

theorem contains_true_iff {α : Type} [BEq α] [LawfulBEq α] {l : List α} {a : α} :
    l.contains a = true ↔ a ∈ l :=
  List.elem_iff

theorem contains_false_iff {α : Type} [BEq α] [LawfulBEq α] {l : List α} {a : α} :
    l.contains a = false ↔ a ∉ l := by
  constructor
  · intro h hm
    rw [contains_true_iff.mpr hm] at h
    cases h
  · intro hm
    cases hx : l.contains a
    · rfl
    · exact absurd (contains_true_iff.mp hx) hm

theorem newRefs_mem (rs : List String) :
    ∀ seen0 r, r ∈ newRefs seen0 rs → r ∈ rs ∧ r ∉ seen0 := by
  induction rs with
  | nil => intro seen0 r h; simp [newRefs] at h
  | cons a rest ih =>
      intro seen0 r h
      simp only [newRefs] at h
      by_cases ha : seen0.contains a = true
      · rw [if_pos ha] at h
        have := ih seen0 r h
        exact ⟨List.mem_cons_of_mem _ this.1, this.2⟩
      · rw [if_neg ha] at h
        rcases List.mem_cons.mp h with hr | hr
        · subst hr
          exact ⟨List.mem_cons_self _ _,
            fun hm => ha (contains_true_iff.mpr hm)⟩
        · have := ih (seen0 ++ [a]) r hr
          refine ⟨List.mem_cons_of_mem _ this.1, fun hm => this.2 ?_⟩
          exact List.mem_append.mpr (Or.inl hm)

theorem newRefs_complete (rs : List String) :
    ∀ seen0 r, r ∈ rs → r ∉ seen0 → r ∈ newRefs seen0 rs := by
  induction rs with
  | nil => intro seen0 r h; simp at h
  | cons a rest ih =>
      intro seen0 r hmem hns
      simp only [newRefs]
      by_cases ha : seen0.contains a = true
      · rw [if_pos ha]
        rcases List.mem_cons.mp hmem with hr | hr
        · subst hr
          exact absurd (contains_true_iff.mp ha) hns
        · exact ih seen0 r hr hns
      · rw [if_neg ha]
        rcases List.mem_cons.mp hmem with hr | hr
        · subst hr
          exact List.mem_cons_self _ _
        · by_cases hra : r = a
          · subst hra
            exact List.mem_cons_self _ _
          · refine List.mem_cons_of_mem _ (ih (seen0 ++ [a]) r hr ?_)
            intro hm
            rcases List.mem_append.mp hm with hm1 | hm1
            · exact hns hm1
            · exact hra (List.mem_singleton.mp hm1)

theorem newRefs_nodup (rs : List String) :
    ∀ seen0, (newRefs seen0 rs).Nodup := by
  induction rs with
  | nil => intro seen0; simp [newRefs]
  | cons a rest ih =>
      intro seen0
      simp only [newRefs]
      by_cases ha : seen0.contains a = true
      · rw [if_pos ha]; exact ih seen0
      · rw [if_neg ha]
        refine List.nodup_cons.mpr ⟨?_, ih (seen0 ++ [a])⟩
        intro hmem
        have := (newRefs_mem rest (seen0 ++ [a]) a hmem).2
        exact this (List.mem_append.mpr (Or.inr (List.mem_singleton.mpr rfl)))

theorem validatedAux_not_seen (cfg : Config) (ls : List (Nat × List Char)) :
    ∀ seen p, p ∈ validatedAux cfg seen ls → p.2 ∉ seen := by
  induction ls with
  | nil => intro seen p h; simp [validatedAux] at h
  | cons nl rest ih =>
      intro seen p h
      simp only [validatedAux] at h
      rcases List.mem_append.mp h with h1 | h1
      · obtain ⟨r, hr, hp⟩ := List.mem_map.mp h1
        rw [← hp]
        exact (newRefs_mem _ _ _ hr).2
      · intro hm
        exact ih (seen ++ newRefs seen (lineSurvivors cfg nl.2)) p h1
          (List.mem_append.mpr (Or.inl hm))

theorem validatedAux_snd_nodup (cfg : Config) (ls : List (Nat × List Char)) :
    ∀ seen, ((validatedAux cfg seen ls).map Prod.snd).Nodup := by
  induction ls with
  | nil => intro seen; simp [validatedAux]
  | cons nl rest ih =>
      intro seen
      simp only [validatedAux, List.map_append, List.map_map]
      have hid : (Prod.snd ∘ fun r : String => (nl.1, r)) = (id : String → String) := rfl
      rw [hid, List.map_id]
      refine List.Nodup.append (newRefs_nodup _ seen) (ih _) ?_
      intro x hx hy
      obtain ⟨p, hp, hps⟩ := List.mem_map.mp hy
      have hns := validatedAux_not_seen cfg rest _ p hp
      rw [hps] at hns
      exact hns (List.mem_append.mpr (Or.inr hx))

theorem validatedAux_first (cfg : Config) (ls : List (Nat × List Char)) :
    ∀ seen n r, List.Pairwise (fun a b => a.1 < b.1) ls →
      (n, r) ∈ validatedAux cfg seen ls →
      ∃ line, (n, line) ∈ ls ∧ r ∈ lineSurvivors cfg line ∧
        ∀ m l2, (m, l2) ∈ ls → m < n → r ∉ lineSurvivors cfg l2 := by
  induction ls with
  | nil => intro seen n r _ h; simp [validatedAux] at h
  | cons nl rest ih =>
      intro seen n r hpw h
      have hpw2 := List.pairwise_cons.mp hpw
      simp only [validatedAux] at h
      rcases List.mem_append.mp h with h1 | h1
      · obtain ⟨r2, hr2, hpr⟩ := List.mem_map.mp h1
        have hn : nl.1 = n := congrArg Prod.fst hpr
        have hrr : r2 = r := congrArg Prod.snd hpr
        subst hrr
        refine ⟨nl.2, ?_, (newRefs_mem _ _ _ hr2).1, ?_⟩
        · rw [← hn]
          exact List.mem_cons_self _ _
        · intro m l2 hm hmn
          rcases List.mem_cons.mp hm with he | he
          · rw [show m = nl.1 from congrArg Prod.fst he, hn] at hmn
            exact absurd hmn (lt_irrefl n)
          · have := hpw2.1 (m, l2) he
            rw [hn] at this
            exact absurd (lt_trans hmn this) (lt_irrefl m)
      · obtain ⟨line, hline, hsurv, hfirst⟩ :=
          ih (seen ++ newRefs seen (lineSurvivors cfg nl.2)) n r hpw2.2 h1
        refine ⟨line, List.mem_cons_of_mem _ hline, hsurv, ?_⟩
        intro m l2 hm hmn
        rcases List.mem_cons.mp hm with he | he
        · have hns := validatedAux_not_seen cfg rest _ (n, r) h1
          intro hr2
          have hl2 : l2 = nl.2 := congrArg Prod.snd he
          rw [hl2] at hr2
          have hrnotseen : r ∉ seen := fun hx =>
            hns (List.mem_append.mpr (Or.inl hx))
          exact hns (List.mem_append.mpr
            (Or.inr (newRefs_complete _ _ _ hr2 hrnotseen)))
        · exact hfirst m l2 he hmn

theorem str_append_left_cancel {a b c : String} (h : a ++ b = a ++ c) : b = c := by
  have hd := congrArg String.data h
  have hd2 : a.data ++ b.data = a.data ++ c.data := hd
  exact String.ext (List.append_cancel_left hd2)

theorem enumFrom_pairwise_fst_lt {α : Type} (l : List α) :
    ∀ i, List.Pairwise (fun a b => a.1 < b.1) (l.enumFrom i) := by
  induction l with
  | nil => intro i; simp
  | cons x xs ih =>
      intro i
      simp only [List.enumFrom]
      refine List.pairwise_cons.mpr ⟨?_, ih (i + 1)⟩
      intro p hp
      have := List.le_fst_of_mem_enumFrom hp
      omega

theorem validatedAux_mem_surv (cfg : Config) (ls : List (Nat × List Char)) :
    ∀ seen p, p ∈ validatedAux cfg seen ls →
      ∃ nl ∈ ls, p.2 ∈ lineSurvivors cfg nl.2 := by
  induction ls with
  | nil => intro seen p h; simp [validatedAux] at h
  | cons nl rest ih =>
      intro seen p h
      simp only [validatedAux] at h
      rcases List.mem_append.mp h with h1 | h1
      · obtain ⟨r, hr, hp⟩ := List.mem_map.mp h1
        refine ⟨nl, List.mem_cons_self _ _, ?_⟩
        rw [← congrArg Prod.snd hp]
        exact (newRefs_mem _ _ _ hr).1
      · obtain ⟨nl2, hnl2, hs⟩ := ih _ p h1
        exact ⟨nl2, List.mem_cons_of_mem _ hnl2, hs⟩

theorem surv_ignore_props (cfg : Config) (line : List Char) (ref : String)
    (h : ref ∈ lineSurvivors cfg line) :
    cfg.ignore_refs.contains ref = false ∧
      cfg.ignore_refs.contains (pyPathName ref) = false := by
  obtain ⟨a, _, ha⟩ := List.mem_filterMap.mp h
  have := survRef_props cfg a ref ha
  exact ⟨this.2.2.2.1, this.2.2.2.2⟩

theorem refDiagFor_filter_le (root : List String) (fs : FS) (rel : String)
    (ln : Nat) (x ref : String) :
    ((refDiagFor root fs rel ln x).filter
        (fun d => d.hard && (d.message == "broken ref → " ++ ref))).length ≤ 1 ∧
      (x ≠ ref →
        ((refDiagFor root fs rel ln x).filter
            (fun d => d.hard && (d.message == "broken ref → " ++ ref))).length = 0) := by
  unfold refDiagFor
  by_cases h1 : root.isPrefixOf (resolveRef root x) = true
  · rw [if_pos h1]
    by_cases h2 : existsTarget fs ((resolveRef root x).drop root.length) = true
    · rw [if_pos h2]
      simp
    · rw [if_neg h2]
      constructor
      · cases hp : (fun d => d.hard && (d.message == "broken ref → " ++ ref))
            (brokenRefDiag rel x ln) <;> simp [List.filter, hp]
      · intro hx
        have hb : (("broken ref → " ++ x) == ("broken ref → " ++ ref)) = false := by
          rw [beq_eq_false_iff_ne]
          intro hmsg
          exact hx (str_append_left_cancel hmsg)
        simp [List.filter, brokenRefDiag, hb]
  · rw [if_neg h1]
    constructor
    · simp [List.filter, escapeRefDiag]
    · intro _
      simp [List.filter, escapeRefDiag]

theorem flatMap_broken_zero (root : List String) (fs : FS) (rel ref : String)
    (V : List (Nat × String)) (hall : ∀ q ∈ V, q.2 ≠ ref) :
    ((V.flatMap (fun p => refDiagFor root fs rel p.1 p.2)).filter
        (fun d => d.hard && (d.message == "broken ref → " ++ ref))).length = 0 := by
  induction V with
  | nil => simp
  | cons p V2 ih =>
      simp only [List.flatMap_cons, List.filter_append, List.length_append]
      rw [(refDiagFor_filter_le root fs rel p.1 p.2 ref).2
            (hall p (List.mem_cons_self _ _)),
          ih (fun q hq => hall q (List.mem_cons_of_mem _ hq))]

theorem flatMap_broken_count (root : List String) (fs : FS) (rel ref : String)
    (V : List (Nat × String)) (hnd : (V.map Prod.snd).Nodup) :
    ((V.flatMap (fun p => refDiagFor root fs rel p.1 p.2)).filter
        (fun d => d.hard && (d.message == "broken ref → " ++ ref))).length ≤ 1 := by
  induction V with
  | nil => simp
  | cons p V2 ih =>
      simp only [List.flatMap_cons, List.filter_append, List.length_append]
      simp only [List.map_cons, List.nodup_cons] at hnd
      by_cases hp : p.2 = ref
      · have hz : ∀ q ∈ V2, q.2 ≠ ref := by
          intro q hq he
          exact hnd.1 (by
            rw [hp, ← he]
            exact List.mem_map.mpr ⟨q, hq, rfl⟩)
        rw [flatMap_broken_zero root fs rel ref V2 hz]
        have := (refDiagFor_filter_le root fs rel p.1 p.2 ref).1
        omega
      · rw [(refDiagFor_filter_le root fs rel p.1 p.2 ref).2 hp]
        have := ih hnd.2
        omega

/-- C9: in `_check_refs_in_file`, (a) every hard diagnostic is a broken-ref
diagnostic whose reference is neither in `ignore_refs` by value nor by
basename (so an ignored reference never produces one, even with an absent
target); (b) each distinct reference string yields at most one broken-ref
diagnostic per file; (c) a broken-ref diagnostic sits at the reference's
first surviving occurrence: its line contains the reference and no earlier
line does. -/
theorem refs_ignored_and_validated_once (root : List String) (fs : FS)
    (fpath rel : String) (cfg : Config) (raw : String)
    (hread : fsRead fs fpath = some raw) :
    (∀ d ∈ _check_refs_in_file root fs fpath rel cfg, d.hard = true →
       ∃ ref ln, d = brokenRefDiag rel ref ln ∧ refIsBroken root fs ref ∧
         cfg.ignore_refs.contains ref = false ∧
         cfg.ignore_refs.contains (pyPathName ref) = false) ∧
    (∀ ref : String,
       ((_check_refs_in_file root fs fpath rel cfg).filter
           (fun d => d.hard && (d.message == "broken ref → " ++ ref))).length ≤ 1) ∧
    (∀ ref n, brokenRefDiag rel ref n ∈ _check_refs_in_file root fs fpath rel cfg →
       ∃ line, (n, line) ∈ (pySplitlines raw).enumFrom 1 ∧
         ref ∈ lineSurvivors cfg line ∧
         ∀ m l2, (m, l2) ∈ (pySplitlines raw).enumFrom 1 → m < n →
           ref ∉ lineSurvivors cfg l2) := by
  rw [check_refs_in_file_eq root fs fpath rel cfg raw hread]
  refine ⟨?_, ?_, ?_⟩
  · intro d hd hhard
    obtain ⟨p, hp, hdp⟩ := List.mem_flatMap.mp hd
    rcases refDiagFor_mem root fs rel p.1 p.2 d hdp with ⟨hde, hbrk⟩ | ⟨hde, _⟩
    · obtain ⟨nl, _, hsurv⟩ := validatedAux_mem_surv cfg _ _ p hp
      have hig := surv_ignore_props cfg nl.2 p.2 hsurv
      exact ⟨p.2, p.1, hde, hbrk, hig.1, hig.2⟩
    · rw [hde] at hhard
      simp [escapeRefDiag] at hhard
  · intro ref
    exact flatMap_broken_count root fs rel ref _
      (validatedAux_snd_nodup cfg _ [])
  · intro ref n hd
    obtain ⟨p, hp, hdp⟩ := List.mem_flatMap.mp hd
    rcases refDiagFor_mem root fs rel p.1 p.2 _ hdp with ⟨hde, _⟩ | ⟨hde, _⟩
    · have hmsg : "broken ref → " ++ ref = "broken ref → " ++ p.2 := by
        have := congrArg Diagnostic.message hde
        simpa [brokenRefDiag] using this
      have href : ref = p.2 := str_append_left_cancel hmsg
      have hln : n = p.1 := by
        have := congrArg Diagnostic.lineno hde
        simpa [brokenRefDiag] using this
      have hpv : (n, ref) ∈ validatedAux cfg []
          ((pySplitlines raw).enumFrom 1) := by
        rw [href, hln]
        exact hp
      exact validatedAux_first cfg _ [] n ref
        (enumFrom_pairwise_fst_lt _ 1) hpv
    · have := congrArg Diagnostic.hard hde
      simp [brokenRefDiag, escapeRefDiag] at this

/-- C9 witness: a file repeating `missing.md` on two lines and referencing
an ignored absent target; the broken-ref count for `missing.md` is at most
one, the hard diagnostics avoid `ignore_refs`, and the diagnostic sits at
the first occurrence (line 1). -/
theorem refs_ignored_and_validated_once_witness :
    (((_check_refs_in_file ["repo"] ⟨[("AGENTS.md",
        "[a](missing.md)\n[b](missing.md)\n[c](skipped.md)")]⟩ "AGENTS.md"
        "AGENTS.md" { ignore_refs := ["skipped.md"] }).filter
          (fun d => d.hard && (d.message == "broken ref → " ++ "missing.md"))).length ≤ 1) ∧
    (∀ m l2, (m, l2) ∈ (pySplitlines
        "[a](missing.md)\n[b](missing.md)\n[c](skipped.md)").enumFrom 1 → m < 1 →
        "missing.md" ∉ lineSurvivors { ignore_refs := ["skipped.md"] } l2) := by
  constructor
  · exact (refs_ignored_and_validated_once ["repo"] ⟨[("AGENTS.md",
      "[a](missing.md)\n[b](missing.md)\n[c](skipped.md)")]⟩ "AGENTS.md"
      "AGENTS.md" { ignore_refs := ["skipped.md"] } _ rfl).2.1 "missing.md"
  · have h3 := (refs_ignored_and_validated_once ["repo"] ⟨[("AGENTS.md",
      "[a](missing.md)\n[b](missing.md)\n[c](skipped.md)")]⟩ "AGENTS.md"
      "AGENTS.md" { ignore_refs := ["skipped.md"] } _ rfl).2.2 "missing.md" 1
      (by decide)
    obtain ⟨line, _, _, hfirst⟩ := h3
    exact hfirst

/-! ## Router-sanity lemmas -/

theorem foldl_append_eq_flatMap {α β : Type} (f : α → List β) (l : List α) :
    ∀ acc : List β, l.foldl (fun acc x => acc ++ f x) acc = acc ++ l.flatMap f := by
  induction l with
  | nil => intro acc; simp
  | cons x xs ih =>
      intro acc
      simp only [List.foldl_cons, List.flatMap_cons]
      rw [ih (acc ++ f x)]
      simp [List.append_assoc]

theorem foldl_step_flatMap {α β : Type} (step : List β → α → List β)
    (blk : α → List β) (h : ∀ acc x, step acc x = acc ++ blk x) (l : List α) :
    ∀ acc, l.foldl step acc = acc ++ l.flatMap blk := by
  induction l with
  | nil => intro acc; simp
  | cons x xs ih =>
      intro acc
      simp only [List.foldl_cons, List.flatMap_cons]
      rw [h, ih]
      simp [List.append_assoc]

theorem router_sanity_eq (fs : FS) (cfg : Config) :
    _check_router_sanity fs cfg =
      ROUTER_FILES_SORTED.flatMap (fun name =>
        match fsRead fs name with
        | none => []
        | some text =>
            (if (lineCount text : Int) > cfg.router_warn_lines
             then [routerLongDiag cfg name (lineCount text)] else []) ++
            (if pointerFound text then [] else [routerPointerDiag name])) := by
  unfold _check_router_sanity
  refine Eq.trans (foldl_step_flatMap _ (fun name =>
      match fsRead fs name with
      | none => []
      | some text =>
          (if (lineCount text : Int) > cfg.router_warn_lines
           then [routerLongDiag cfg name (lineCount text)] else []) ++
          (if pointerFound text then [] else [routerPointerDiag name]))
      ?_ ROUTER_FILES_SORTED []) (by simp)
  intro acc name
  cases h : fsRead fs name with
  | none => simp [h]
  | some text =>
      simp only [h]
      by_cases h1 : (lineCount text : Int) > cfg.router_warn_lines <;>
        by_cases h2 : pointerFound text = true <;>
          simp [h1, h2, List.append_assoc]

theorem routerPointer_ne_long (cfg : Config) (name : String) (c : Nat) :
    routerPointerDiag name ≠ routerLongDiag cfg name c := by
  intro h
  have hmsg := congrArg (fun d => d.message.data.getLast?) h
  simp only [routerPointerDiag, routerLongDiag] at hmsg
  have hr : ((toString c ++ " lines — router files should be short (<=" ++
      toString cfg.router_warn_lines ++ ")").data).getLast? = some ')' := by
    show ((toString c ++ " lines — router files should be short (<=" ++
      toString cfg.router_warn_lines).data ++ [')']).getLast? = some ')'
    exact List.getLast?_concat _
  rw [hr] at hmsg
  have hl : (("no pointer to AGENTS.md or docs/ — add one" : String).data).getLast? =
      some 'e' := by decide
  rw [hl] at hmsg
  cases hmsg

theorem router_block_path (fs : FS) (cfg : Config) (n2 : String) (d : Diagnostic)
    (hd : d ∈ (match fsRead fs n2 with
      | none => ([] : List Diagnostic)
      | some text =>
          (if (lineCount text : Int) > cfg.router_warn_lines
           then [routerLongDiag cfg n2 (lineCount text)] else []) ++
          (if pointerFound text then [] else [routerPointerDiag n2]))) :
    d.path = n2 := by
  cases h : fsRead fs n2 with
  | none => rw [h] at hd; cases hd
  | some text =>
      rw [h] at hd
      rcases List.mem_append.mp hd with h1 | h1
      · by_cases hc : (lineCount text : Int) > cfg.router_warn_lines
        · rw [if_pos hc] at h1
          rw [List.mem_singleton.mp h1]
          rfl
        · rw [if_neg hc] at h1; cases h1
      · by_cases hc : pointerFound text = true
        · rw [if_pos hc] at h1; cases h1
        · rw [if_neg hc] at h1
          rw [List.mem_singleton.mp h1]
          rfl

/-- C5 (amended): for an existing router file, the missing-pointer warning
is emitted exactly when the text contains no case-insensitive occurrence of
`AGENTS.md` AND no case-insensitive occurrence of `docs/` (the regex is
compiled with `re.IGNORECASE`, which covers both alternatives); the length
warning is emitted exactly when the line count exceeds
`router_warn_lines`; the two diagnostics are distinct and independent. -/
theorem router_pointer_and_length_iff (fs : FS) (cfg : Config)
    (name text : String) (hname : name ∈ ROUTER_FILES_SORTED)
    (hread : fsRead fs name = some text) :
    (routerPointerDiag name ∈ _check_router_sanity fs cfg ↔
      containsCI "AGENTS.md" text = false ∧ containsCI "docs/" text = false) ∧
    (routerLongDiag cfg name (lineCount text) ∈ _check_router_sanity fs cfg ↔
      cfg.router_warn_lines < (lineCount text : Int)) ∧
    routerPointerDiag name ≠ routerLongDiag cfg name (lineCount text) := by
  rw [router_sanity_eq]
  refine ⟨⟨?_, ?_⟩, ⟨?_, ?_⟩, routerPointer_ne_long cfg name (lineCount text)⟩
  · intro hmem
    obtain ⟨n2, hn2, hd⟩ := List.mem_flatMap.mp hmem
    have hpath := router_block_path fs cfg n2 _ hd
    have hn : n2 = name := by
      rw [← hpath]; rfl
    rw [hn] at hd
    rw [hread] at hd
    rcases List.mem_append.mp hd with h1 | h1
    · by_cases hc : (lineCount text : Int) > cfg.router_warn_lines
      · rw [if_pos hc] at h1
        exact absurd (List.mem_singleton.mp h1)
          (routerPointer_ne_long cfg name (lineCount text))
      · rw [if_neg hc] at h1; cases h1
    · by_cases hc : pointerFound text = true
      · rw [if_pos hc] at h1; cases h1
      · have := hc
        unfold pointerFound at this
        simp only [Bool.or_eq_true, not_or, Bool.not_eq_true] at this
        exact this
  · intro hcond
    refine List.mem_flatMap.mpr ⟨name, hname, ?_⟩
    rw [hread]
    refine List.mem_append.mpr (Or.inr ?_)
    have hpf : pointerFound text = false := by
      unfold pointerFound
      rw [hcond.1, hcond.2]
      rfl
    rw [hpf]
    simp
  · intro hmem
    obtain ⟨n2, hn2, hd⟩ := List.mem_flatMap.mp hmem
    have hpath := router_block_path fs cfg n2 _ hd
    have hn : n2 = name := by
      rw [← hpath]; rfl
    rw [hn] at hd
    rw [hread] at hd
    rcases List.mem_append.mp hd with h1 | h1
    · by_cases hc : (lineCount text : Int) > cfg.router_warn_lines
      · exact hc
      · rw [if_neg hc] at h1; cases h1
    · by_cases hc : pointerFound text = true
      · rw [if_pos hc] at h1; cases h1
      · rw [if_neg hc] at h1
        exact absurd (List.mem_singleton.mp h1).symm
          (routerPointer_ne_long cfg name (lineCount text))
  · intro hcond
    refine List.mem_flatMap.mpr ⟨name, hname, ?_⟩
    rw [hread]
    refine List.mem_append.mpr (Or.inl ?_)
    rw [if_pos hcond]
    simp

/-- C5 counterexample: `DOCS/` matches the IGNORECASE pointer regex, so a
router file whose only pointer-like text is upper-case `DOCS/` — containing
no case-insensitive `AGENTS.md` and no literal `docs/` — still gets NO
missing-pointer warning, contradicting the claim as stated. -/
theorem router_pointer_literal_cex :
    containsCI "AGENTS.md" "See DOCS/INDEX for details" = false ∧
    containsSub "docs/" "See DOCS/INDEX for details" = false ∧
    routerPointerDiag "CLAUDE.md" ∉
      _check_router_sanity ⟨[("CLAUDE.md", "See DOCS/INDEX for details")]⟩ {} := by
  decide

/-- C5 witness: a 2-line pointer-less router file with `router_warn_lines
:= 1` receives both independent soft diagnostics. -/
theorem router_pointer_and_length_iff_witness :
    routerPointerDiag "CLAUDE.md" ∈
      _check_router_sanity ⟨[("CLAUDE.md", "hi\nthere")]⟩ { router_warn_lines := 1 } ∧
    routerLongDiag { router_warn_lines := 1 } "CLAUDE.md"
        (lineCount "hi\nthere") ∈
      _check_router_sanity ⟨[("CLAUDE.md", "hi\nthere")]⟩ { router_warn_lines := 1 } := by
  have h := router_pointer_and_length_iff ⟨[("CLAUDE.md", "hi\nthere")]⟩
    { router_warn_lines := 1 } "CLAUDE.md" "hi\nthere" (by decide) rfl
  exact ⟨h.1.mpr (by decide), h.2.1.mpr (by decide)⟩

/-! ## Discovery lemmas -/

theorem discAdd_seen (st : DiscoverSt) (p : String) (hot : Bool) :
    (discAdd st p hot).seen =
      if p ∈ st.seen then st.seen else st.seen ++ [p] := by
  by_cases hc : p ∈ st.seen
  · have hcb : st.seen.contains p = true := contains_true_iff.mpr hc
    cases hot <;> simp [discAdd, hcb, hc]
  · have hcb : st.seen.contains p = false := contains_false_iff.mpr hc
    cases hot <;> simp [discAdd, hcb, hc]

theorem discAdd_found (st : DiscoverSt) (p : String) (hot : Bool) :
    (discAdd st p hot).found =
      if p ∈ st.seen then st.found else st.found ++ [p] := by
  by_cases hc : p ∈ st.seen
  · have hcb : st.seen.contains p = true := contains_true_iff.mpr hc
    cases hot <;> simp [discAdd, hcb, hc]
  · have hcb : st.seen.contains p = false := contains_false_iff.mpr hc
    cases hot <;> simp [discAdd, hcb, hc]

theorem discAdd_hot_rels (st : DiscoverSt) (p : String) (hot : Bool) :
    (discAdd st p hot).hot_rels =
      if hot then
        (if p ∈ st.hot_rels then st.hot_rels else st.hot_rels ++ [p])
      else st.hot_rels := by
  by_cases hc : p ∈ st.seen <;>
    by_cases hh : p ∈ st.hot_rels <;>
      cases hot <;>
        simp [discAdd, contains_true_iff, contains_false_iff, hc, hh]

theorem discAdd_inv (st : DiscoverSt) (p : String) (hot : Bool)
    (h1 : st.seen = st.found) (h2 : st.found.Nodup) :
    (discAdd st p hot).seen = (discAdd st p hot).found ∧
      (discAdd st p hot).found.Nodup := by
  rw [discAdd_seen, discAdd_found]
  by_cases hc : p ∈ st.seen
  · rw [if_pos hc, if_pos hc]
    exact ⟨h1, h2⟩
  · rw [if_neg hc, if_neg hc]
    refine ⟨by rw [h1], ?_⟩
    simp only [List.nodup_append]
    refine ⟨h2, List.nodup_singleton _, ?_⟩
    intro a ha hb
    rw [List.mem_singleton] at hb
    subst hb
    rw [← h1] at ha
    exact hc ha

theorem discAdd_hot_mono (st : DiscoverSt) (p : String) (hot : Bool)
    (x : String) (hx : x ∈ st.hot_rels) : x ∈ (discAdd st p hot).hot_rels := by
  rw [discAdd_hot_rels]
  cases hot
  · exact hx
  · simp only [if_true]
    by_cases hh : p ∈ st.hot_rels
    · rw [if_pos hh]; exact hx
    · rw [if_neg hh]; exact List.mem_append.mpr (Or.inl hx)

theorem discAdd_hot_sub (st : DiscoverSt) (p : String) (hot : Bool)
    (x : String) (hx : x ∈ (discAdd st p hot).hot_rels) :
    x ∈ st.hot_rels ∨ (hot = true ∧ x = p) := by
  rw [discAdd_hot_rels] at hx
  cases hot
  · exact Or.inl hx
  · simp only [if_true] at hx
    by_cases hh : p ∈ st.hot_rels
    · rw [if_pos hh] at hx; exact Or.inl hx
    · rw [if_neg hh] at hx
      rcases List.mem_append.mp hx with h | h
      · exact Or.inl h
      · exact Or.inr ⟨rfl, List.mem_singleton.mp h⟩

theorem discAdd_hot_self (st : DiscoverSt) (p : String) :
    p ∈ (discAdd st p true).hot_rels := by
  rw [discAdd_hot_rels]
  simp only [if_true]
  by_cases hh : p ∈ st.hot_rels
  · rw [if_pos hh]; exact hh
  · rw [if_neg hh]
    exact List.mem_append.mpr (Or.inr (List.mem_singleton.mpr rfl))

theorem foldl_discAdd_master (l : List String) (hot : Bool) :
    ∀ st : DiscoverSt,
      (st.seen = st.found → st.found.Nodup →
        (l.foldl (fun st2 f => discAdd st2 f hot) st).seen =
            (l.foldl (fun st2 f => discAdd st2 f hot) st).found ∧
          (l.foldl (fun st2 f => discAdd st2 f hot) st).found.Nodup) ∧
      (∀ x, x ∈ st.hot_rels →
        x ∈ (l.foldl (fun st2 f => discAdd st2 f hot) st).hot_rels) ∧
      (∀ x, x ∈ (l.foldl (fun st2 f => discAdd st2 f hot) st).hot_rels →
        x ∈ st.hot_rels ∨ (hot = true ∧ x ∈ l)) ∧
      (hot = true → ∀ x ∈ l,
        x ∈ (l.foldl (fun st2 f => discAdd st2 f hot) st).hot_rels) := by
  induction l with
  | nil =>
      intro st
      exact ⟨fun h1 h2 => ⟨h1, h2⟩, fun x hx => hx,
        fun x hx => Or.inl hx, fun _ x hx => absurd hx (List.not_mem_nil x)⟩
  | cons a rest ih =>
      intro st
      simp only [List.foldl_cons]
      obtain ⟨ih1, ih2, ih3, ih4⟩ := ih (discAdd st a hot)
      refine ⟨?_, ?_, ?_, ?_⟩
      · intro h1 h2
        obtain ⟨g1, g2⟩ := discAdd_inv st a hot h1 h2
        exact ih1 g1 g2
      · intro x hx
        exact ih2 x (discAdd_hot_mono st a hot x hx)
      · intro x hx
        rcases ih3 x hx with h | h
        · rcases discAdd_hot_sub st a hot x h with h2 | h2
          · exact Or.inl h2
          · exact Or.inr ⟨h2.1, h2.2 ▸ List.mem_cons_self _ _⟩
        · exact Or.inr ⟨h.1, List.mem_cons_of_mem _ h.2⟩
      · intro hh x hx
        rcases List.mem_cons.mp hx with h | h
        · subst h
          subst hh
          exact ih2 x (discAdd_hot_self st x)
        · exact ih4 hh x h

theorem foldl_hotfiles_master (fs : FS) (l : List String) :
    ∀ st : DiscoverSt,
      (st.seen = st.found → st.found.Nodup →
        (l.foldl (fun st2 name =>
            if fsIsFile fs name then discAdd st2 name true else st2) st).seen =
            (l.foldl (fun st2 name =>
              if fsIsFile fs name then discAdd st2 name true else st2) st).found ∧
          (l.foldl (fun st2 name =>
            if fsIsFile fs name then discAdd st2 name true else st2) st).found.Nodup) ∧
      (∀ x, x ∈ st.hot_rels →
        x ∈ (l.foldl (fun st2 name =>
          if fsIsFile fs name then discAdd st2 name true else st2) st).hot_rels) ∧
      (∀ x, x ∈ (l.foldl (fun st2 name =>
          if fsIsFile fs name then discAdd st2 name true else st2) st).hot_rels →
        x ∈ st.hot_rels ∨ (x ∈ l ∧ fsIsFile fs x = true)) ∧
      (∀ x ∈ l, fsIsFile fs x = true →
        x ∈ (l.foldl (fun st2 name =>
          if fsIsFile fs name then discAdd st2 name true else st2) st).hot_rels) := by
  induction l with
  | nil =>
      intro st
      exact ⟨fun h1 h2 => ⟨h1, h2⟩, fun x hx => hx,
        fun x hx => Or.inl hx, fun x hx => absurd hx (List.not_mem_nil x)⟩
  | cons a rest ih =>
      intro st
      simp only [List.foldl_cons]
      by_cases hf : fsIsFile fs a = true
      · rw [if_pos hf]
        obtain ⟨ih1, ih2, ih3, ih4⟩ := ih (discAdd st a true)
        refine ⟨?_, ?_, ?_, ?_⟩
        · intro h1 h2
          obtain ⟨g1, g2⟩ := discAdd_inv st a true h1 h2
          exact ih1 g1 g2
        · intro x hx
          exact ih2 x (discAdd_hot_mono st a true x hx)
        · intro x hx
          rcases ih3 x hx with h | h
          · rcases discAdd_hot_sub st a true x h with h2 | h2
            · exact Or.inl h2
            · exact Or.inr ⟨h2.2 ▸ List.mem_cons_self _ _, h2.2 ▸ hf⟩
          · exact Or.inr ⟨List.mem_cons_of_mem _ h.1, h.2⟩
        · intro x hx hxf
          rcases List.mem_cons.mp hx with h | h
          · subst h
            exact ih2 x (discAdd_hot_self st x)
          · exact ih4 x h hxf
      · rw [if_neg hf]
        obtain ⟨ih1, ih2, ih3, ih4⟩ := ih st
        refine ⟨ih1, ih2, ?_, ?_⟩
        · intro x hx
          rcases ih3 x hx with h | h
          · exact Or.inl h
          · exact Or.inr ⟨List.mem_cons_of_mem _ h.1, h.2⟩
        · intro x hx hxf
          rcases List.mem_cons.mp hx with h | h
          · subst h
            exact absurd hxf hf
          · exact ih4 x h hxf

theorem foldl_globs_master (fs : FS) (pats : List String) (hot : Bool) :
    ∀ st : DiscoverSt,
      (st.seen = st.found → st.found.Nodup →
        (pats.foldl (fun st2 pat =>
            (_iter_glob fs pat).foldl (fun st3 f => discAdd st3 f hot) st2) st).seen =
            (pats.foldl (fun st2 pat =>
              (_iter_glob fs pat).foldl (fun st3 f => discAdd st3 f hot) st2) st).found ∧
          (pats.foldl (fun st2 pat =>
            (_iter_glob fs pat).foldl (fun st3 f => discAdd st3 f hot) st2) st).found.Nodup) ∧
      (∀ x, x ∈ st.hot_rels →
        x ∈ (pats.foldl (fun st2 pat =>
          (_iter_glob fs pat).foldl (fun st3 f => discAdd st3 f hot) st2) st).hot_rels) ∧
      (∀ x, x ∈ (pats.foldl (fun st2 pat =>
          (_iter_glob fs pat).foldl (fun st3 f => discAdd st3 f hot) st2) st).hot_rels →
        x ∈ st.hot_rels ∨ (hot = true ∧ ∃ pat ∈ pats, x ∈ _iter_glob fs pat)) ∧
      (hot = true → ∀ pat ∈ pats, ∀ x ∈ _iter_glob fs pat,
        x ∈ (pats.foldl (fun st2 pat =>
          (_iter_glob fs pat).foldl (fun st3 f => discAdd st3 f hot) st2) st).hot_rels) := by
  induction pats with
  | nil =>
      intro st
      exact ⟨fun h1 h2 => ⟨h1, h2⟩, fun x hx => hx, fun x hx => Or.inl hx,
        fun _ pat hp => absurd hp (List.not_mem_nil pat)⟩
  | cons a rest ih =>
      intro st
      simp only [List.foldl_cons]
      obtain ⟨ih1, ih2, ih3, ih4⟩ :=
        ih ((_iter_glob fs a).foldl (fun st3 f => discAdd st3 f hot) st)
      obtain ⟨g1, g2, g3, g4⟩ := foldl_discAdd_master (_iter_glob fs a) hot st
      refine ⟨?_, ?_, ?_, ?_⟩
      · intro h1 h2
        obtain ⟨k1, k2⟩ := g1 h1 h2
        exact ih1 k1 k2
      · intro x hx
        exact ih2 x (g2 x hx)
      · intro x hx
        rcases ih3 x hx with h | h
        · rcases g3 x h with h2 | h2
          · exact Or.inl h2
          · exact Or.inr ⟨h2.1, a, List.mem_cons_self _ _, h2.2⟩
        · obtain ⟨pat, hpat, hxp⟩ := h.2
          exact Or.inr ⟨h.1, pat, List.mem_cons_of_mem _ hpat, hxp⟩
      · intro hh pat hpat x hx
        rcases List.mem_cons.mp hpat with h | h
        · subst h
          subst hh
          exact ih2 x (g4 rfl x hx)
        · exact ih4 hh pat h x hx

/-! ## Sorting lemmas -/

theorem charListLt_asymm : ∀ a b : List Char,
    charListLt a b = true → charListLt b a = false := by
  intro a
  induction a with
  | nil =>
      intro b h
      cases b with
      | nil => simp [charListLt] at h
      | cons c cs => simp [charListLt]
  | cons x xs ih =>
      intro b h
      cases b with
      | nil => simp [charListLt] at h
      | cons y ys =>
          simp only [charListLt, Bool.or_eq_true, Bool.and_eq_true,
            decide_eq_true_eq] at h
          simp only [charListLt, Bool.or_eq_false_iff, Bool.and_eq_false_iff,
            decide_eq_false_iff_not]
          rcases h with h | ⟨he, h⟩
          · exact ⟨lt_asymm h, Or.inl (fun hyx => lt_irrefl x (hyx ▸ h))⟩
          · subst he
            exact ⟨lt_irrefl x, Or.inr (ih ys h)⟩

theorem charListLt_trans : ∀ a b c : List Char,
    charListLt a b = true → charListLt b c = true → charListLt a c = true := by
  intro a
  induction a with
  | nil =>
      intro b c hab hbc
      cases b with
      | nil => simp [charListLt] at hab
      | cons y ys =>
          cases c with
          | nil => simp [charListLt] at hbc
          | cons z zs => simp [charListLt]
  | cons x xs ih =>
      intro b c hab hbc
      cases b with
      | nil => simp [charListLt] at hab
      | cons y ys =>
          cases c with
          | nil => simp [charListLt] at hbc
          | cons z zs =>
              simp only [charListLt, Bool.or_eq_true, Bool.and_eq_true,
                decide_eq_true_eq] at hab hbc ⊢
              rcases hab with hab | ⟨haeq, hab⟩
              · rcases hbc with hbc | ⟨hbeq, hbc⟩
                · exact Or.inl (lt_trans hab hbc)
                · exact Or.inl (hbeq ▸ hab)
              · rcases hbc with hbc | ⟨hbeq, hbc⟩
                · exact Or.inl (haeq ▸ hbc)
                · exact Or.inr ⟨haeq.trans hbeq, ih ys zs hab hbc⟩

theorem charListLt_connex : ∀ a b : List Char,
    a ≠ b → charListLt a b = true ∨ charListLt b a = true := by
  intro a
  induction a with
  | nil =>
      intro b hne
      cases b with
      | nil => exact absurd rfl hne
      | cons y ys => exact Or.inl (by simp [charListLt])
  | cons x xs ih =>
      intro b hne
      cases b with
      | nil => exact Or.inr (by simp [charListLt])
      | cons y ys =>
          simp only [charListLt, Bool.or_eq_true, Bool.and_eq_true,
            decide_eq_true_eq]
          rcases lt_trichotomy x y with h | h | h
          · exact Or.inl (Or.inl h)
          · subst h
            have hne2 : xs ≠ ys := fun he => hne (by rw [he])
            rcases ih ys hne2 with h2 | h2
            · exact Or.inl (Or.inr ⟨rfl, h2⟩)
            · exact Or.inr (Or.inr ⟨rfl, h2⟩)
          · exact Or.inr (Or.inl h)

theorem strLeB_total (a b : String) : strLeB a b = true ∨ strLeB b a = true := by
  unfold strLeB strLtB
  by_cases h1 : charListLt b.data a.data = true
  · right
    rw [charListLt_asymm _ _ h1]
    rfl
  · left
    rw [Bool.not_eq_true] at h1
    rw [h1]
    rfl

theorem strLeB_trans (a b c : String) (hab : strLeB a b = true)
    (hbc : strLeB b c = true) : strLeB a c = true := by
  unfold strLeB strLtB at hab hbc ⊢
  rw [Bool.not_eq_eq_eq_not, Bool.not_true] at hab hbc ⊢
  cases hca : charListLt c.data a.data
  · rfl
  · exfalso
    by_cases hcb : c.data = b.data
    · rw [hcb] at hca
      rw [hca] at hab
      cases hab
    · rcases charListLt_connex c.data b.data hcb with h | h
      · rw [h] at hbc
        cases hbc
      · have h2 := charListLt_trans b.data c.data a.data h hca
        rw [h2] at hab
        cases hab

theorem strLtB_of_le_ne (a b : String) (hle : strLeB a b = true) (hne : a ≠ b) :
    strLtB a b = true := by
  unfold strLeB at hle
  unfold strLtB at hle ⊢
  have hdne : a.data ≠ b.data := fun h => hne (String.ext h)
  rcases charListLt_connex a.data b.data hdne with h | h
  · exact h
  · rw [h] at hle
    cases hle

theorem insertSortedBy_perm {α : Type} (le : α → α → Bool) (x : α) :
    ∀ l : List α, (insertSortedBy le x l).Perm (x :: l) := by
  intro l
  induction l with
  | nil => simp [insertSortedBy]
  | cons y ys ih =>
      simp only [insertSortedBy]
      by_cases h : le x y = true
      · rw [if_pos h]
      · rw [if_neg h]
        exact (ih.cons y).trans (List.Perm.swap x y ys)

theorem sortBy_perm {α : Type} (le : α → α → Bool) :
    ∀ l : List α, (sortBy le l).Perm l := by
  intro l
  induction l with
  | nil => simp [sortBy]
  | cons x xs ih =>
      simp only [sortBy]
      exact (insertSortedBy_perm le x (sortBy le xs)).trans (ih.cons x)

theorem insertSortedBy_pairwise {α : Type} (le : α → α → Bool)
    (htot : ∀ a b, le a b = true ∨ le b a = true)
    (htrans : ∀ a b c, le a b = true → le b c = true → le a c = true) (x : α) :
    ∀ l : List α, l.Pairwise (fun a b => le a b = true) →
      (insertSortedBy le x l).Pairwise (fun a b => le a b = true) := by
  intro l
  induction l with
  | nil => intro _; simp [insertSortedBy]
  | cons y ys ih =>
      intro hp
      obtain ⟨hy, hys⟩ := List.pairwise_cons.mp hp
      simp only [insertSortedBy]
      by_cases h : le x y = true
      · rw [if_pos h]
        refine List.pairwise_cons.mpr ⟨?_, hp⟩
        intro b hb
        rcases List.mem_cons.mp hb with he | hm
        · subst he; exact h
        · exact htrans x y b h (hy b hm)
      · rw [if_neg h]
        refine List.pairwise_cons.mpr ⟨?_, ih hys⟩
        intro b hb
        have hmem := (insertSortedBy_perm le x ys).mem_iff.mp hb
        rcases List.mem_cons.mp hmem with he | hm
        · subst he
          rcases htot b y with h1 | h1
          · exact absurd h1 h
          · exact h1
        · exact hy b hm

theorem sortBy_pairwise {α : Type} (le : α → α → Bool)
    (htot : ∀ a b, le a b = true ∨ le b a = true)
    (htrans : ∀ a b c, le a b = true → le b c = true → le a c = true) :
    ∀ l : List α, (sortBy le l).Pairwise (fun a b => le a b = true) := by
  intro l
  induction l with
  | nil => simp [sortBy]
  | cons x xs ih =>
      simp only [sortBy]
      exact insertSortedBy_pairwise le htot htrans x (sortBy le xs) ih

/-! ## Discovery assembly -/

theorem discover_eq_pipeline (fs : FS) (cfg : Config) :
    _discover_context_files fs cfg =
      (if cfg.ignore_paths ≠ [] then
        ((sortBy strLeB (discoverPipeline fs cfg).found).filter
           (fun f => !(_is_ignored f cfg.ignore_paths)),
         (discoverPipeline fs cfg).hot_rels.filter
           (fun r => !(_is_ignored r cfg.ignore_paths)))
       else (sortBy strLeB (discoverPipeline fs cfg).found,
             (discoverPipeline fs cfg).hot_rels)) := rfl

theorem pipeline_facts (fs : FS) (cfg : Config) :
    ((discoverPipeline fs cfg).seen = (discoverPipeline fs cfg).found ∧
      (discoverPipeline fs cfg).found.Nodup) ∧
    (∀ r ∈ (discoverPipeline fs cfg).hot_rels,
       (r ∈ ALWAYS_HOT_FILES ∧ fsIsFile fs r = true) ∨
       (∃ pat ∈ ALWAYS_HOT_GLOBS, r ∈ _iter_glob fs pat)) ∧
    (∀ p, hotSource fs cfg p → p ∈ (discoverPipeline fs cfg).hot_rels) := by
  unfold discoverPipeline
  by_cases hdis : cfg.disable_default_discovery = true
  · simp only [hdis, if_true]
    obtain ⟨e1, e2, e3, _⟩ :=
      foldl_globs_master fs cfg.extra_globs false (⟨[], [], []⟩ : DiscoverSt)
    refine ⟨e1 rfl (List.nodup_nil) , ?_, ?_⟩
    · intro r hr
      rcases e3 r hr with h | h
      · cases h
      · cases h.1
    · intro p hp
      rw [hp.1] at hdis
      cases hdis
  · have hdisF : cfg.disable_default_discovery = false := by
      cases hx : cfg.disable_default_discovery
      · rfl
      · exact absurd hx hdis
    simp only [hdisF, Bool.false_eq_true, if_false]
    obtain ⟨a1, a2, a3, a4⟩ :=
      foldl_hotfiles_master fs ALWAYS_HOT_FILES (⟨[], [], []⟩ : DiscoverSt)
    set stA := ALWAYS_HOT_FILES.foldl
      (fun st name => if fsIsFile fs name then discAdd st name true else st)
      (⟨[], [], []⟩ : DiscoverSt) with hstA
    obtain ⟨b1, b2, b3, b4⟩ := foldl_globs_master fs ALWAYS_HOT_GLOBS true stA
    set stB := ALWAYS_HOT_GLOBS.foldl
      (fun st pat => (_iter_glob fs pat).foldl (fun st2 f => discAdd st2 f true) st)
      stA with hstB
    by_cases hdocs : hasDocsDir fs = true
    · simp only [hdocs, if_true]
      obtain ⟨c1, c2, c3, _⟩ :=
        foldl_discAdd_master (_iter_glob fs "docs/**/*.md") false stB
      set stC := (_iter_glob fs "docs/**/*.md").foldl
        (fun st2 f => discAdd st2 f false) stB with hstC
      obtain ⟨e1, e2, e3, _⟩ := foldl_globs_master fs cfg.extra_globs false stC
      refine ⟨?_, ?_, ?_⟩
      · obtain ⟨k1, k2⟩ := a1 rfl List.nodup_nil
        obtain ⟨k3, k4⟩ := b1 k1 k2
        obtain ⟨k5, k6⟩ := c1 k3 k4
        exact e1 k5 k6
      · intro r hr
        rcases e3 r hr with h | h
        · rcases c3 r h with h2 | h2
          · rcases b3 r h2 with h3 | h3
            · rcases a3 r h3 with h4 | h4
              · cases h4
              · exact Or.inl h4
            · exact Or.inr h3.2
          · cases h2.1
        · cases h.1
      · intro p hp
        rcases hp.2 with h | h
        · exact e2 p (c2 p (b2 p (a4 p h.1 h.2)))
        · obtain ⟨pat, hpat, hx⟩ := h
          exact e2 p (c2 p (b4 rfl pat hpat p hx))
    · simp only [hdocs, if_false]
      obtain ⟨e1, e2, e3, _⟩ := foldl_globs_master fs cfg.extra_globs false stB
      refine ⟨?_, ?_, ?_⟩
      · obtain ⟨k1, k2⟩ := a1 rfl List.nodup_nil
        obtain ⟨k3, k4⟩ := b1 k1 k2
        exact e1 k3 k4
      · intro r hr
        rcases e3 r hr with h | h
        · rcases b3 r h with h3 | h3
          · rcases a3 r h3 with h4 | h4
            · cases h4
            · exact Or.inl h4
          · exact Or.inr h3.2
        · cases h.1
      · intro p hp
        rcases hp.2 with h | h
        · exact e2 p (b2 p (a4 p h.1 h.2))
        · obtain ⟨pat, hpat, hx⟩ := h
          exact e2 p (b4 rfl pat hpat p hx)

/-- C8: the discovered file list is duplicate-free, strictly sorted by the
repo-relative path string (code-point lexicographic), and free of
ignore-matched paths; every path with a hot source (always-hot root file or
always-hot glob match) that is not ignore-matched is in the hot set — later
non-hot re-matches never remove it. -/
theorem discovery_invariants (fs : FS) (cfg : Config) :
    (_discover_context_files fs cfg).1.Nodup ∧
    (_discover_context_files fs cfg).1.Pairwise (fun a b => strLtB a b = true) ∧
    (∀ f ∈ (_discover_context_files fs cfg).1,
       _is_ignored f cfg.ignore_paths = false) ∧
    (∀ p, hotSource fs cfg p → _is_ignored p cfg.ignore_paths = false →
       p ∈ (_discover_context_files fs cfg).2) := by
  rw [discover_eq_pipeline]
  obtain ⟨⟨hsf, hnd⟩, hsound, hcomp⟩ := pipeline_facts fs cfg
  have hsortnd : (sortBy strLeB (discoverPipeline fs cfg).found).Nodup :=
    ((sortBy_perm strLeB _).nodup_iff).mpr hnd
  have hsorted := sortBy_pairwise strLeB strLeB_total strLeB_trans
    (discoverPipeline fs cfg).found
  have hstrict : (sortBy strLeB (discoverPipeline fs cfg).found).Pairwise
      (fun a b => strLtB a b = true) := by
    have hne : (sortBy strLeB (discoverPipeline fs cfg).found).Pairwise (· ≠ ·) :=
      hsortnd
    exact (hsorted.and hne).imp (fun h => strLtB_of_le_ne _ _ h.1 h.2)
  by_cases hig : cfg.ignore_paths ≠ []
  · rw [if_pos hig]
    refine ⟨hsortnd.filter _, hstrict.sublist (List.filter_sublist _), ?_, ?_⟩
    · intro f hf
      have h2 := (List.mem_filter.mp hf).2
      cases hx : _is_ignored f cfg.ignore_paths
      · rfl
      · rw [hx] at h2; cases h2
    · intro p hp hig2
      exact List.mem_filter.mpr ⟨hcomp p hp, by rw [hig2]; rfl⟩
  · rw [if_neg hig]
    push_neg at hig
    refine ⟨hsortnd, hstrict, ?_, ?_⟩
    · intro f _
      rw [hig]
      rfl
    · intro p hp _
      exact hcomp p hp

/-- C8 witness: a tree where `AGENTS.md` is both an always-hot file and an
`extra_globs` match, and `docs/z.md`, `docs/a.md` are discovered: the
result is duplicate-free, strictly sorted, ignore-filtered, and
`AGENTS.md` stays hot. -/
theorem discovery_invariants_witness :
    ((_discover_context_files ⟨[("AGENTS.md", "x"), ("docs/z.md", "y"),
        ("docs/a.md", "w"), ("skip.md", "v")]⟩
      { extra_globs := ["*.md"], ignore_paths := ["skip*"] }).1.Nodup) ∧
    ("AGENTS.md" ∈ (_discover_context_files ⟨[("AGENTS.md", "x"), ("docs/z.md", "y"),
        ("docs/a.md", "w"), ("skip.md", "v")]⟩
      { extra_globs := ["*.md"], ignore_paths := ["skip*"] }).2) := by
  refine ⟨(discovery_invariants _ _).1, ?_⟩
  exact (discovery_invariants ⟨[("AGENTS.md", "x"), ("docs/z.md", "y"),
      ("docs/a.md", "w"), ("skip.md", "v")]⟩
      { extra_globs := ["*.md"], ignore_paths := ["skip*"] }).2.2.2 "AGENTS.md"
    ⟨rfl, Or.inl ⟨by decide, by decide⟩⟩ (by decide)

/-! ## Hot files are never docs files -/

theorem pathSegs_docs (r : String) (h : in_docs r = true) :
    ∃ s2, pathSegs r = "docs" :: s2 := by
  unfold in_docs strStarts at h
  obtain ⟨t, ht⟩ := List.isPrefixOf_iff_prefix.mp h
  refine ⟨splitSlashAux t [], ?_⟩
  unfold pathSegs
  rw [← ht]
  rfl

theorem bool_and_true {a b : Bool} (h : (a && b) = true) : a = true ∧ b = true := by
  cases a
  · simp at h
  · cases b
    · simp at h
    · exact ⟨rfl, rfl⟩

theorem fnmatchGo_dot_head (fuel : Nat) (rest : List Char) (sd : List Char)
    (h : fnmatchGo (fuel + 1) ('.' :: rest) sd = true) : ∃ t, sd = '.' :: t := by
  cases sd with
  | nil => exact absurd h (by simp [fnmatchGo])
  | cons c2 t2 =>
      have h2 : ((c2 = '.') && fnmatchGo fuel rest t2) = true := h
      have h3 := (bool_and_true h2).1
      exact ⟨t2, by rw [of_decide_eq_true h3]⟩

theorem hot_rel_not_docs (fs : FS) (cfg : Config) (r : String)
    (hr : r ∈ (_discover_context_files fs cfg).2) : in_docs r = false := by
  have hfacts := pipeline_facts fs cfg
  have hrp : r ∈ (discoverPipeline fs cfg).hot_rels := by
    rw [discover_eq_pipeline] at hr
    by_cases hig : cfg.ignore_paths ≠ []
    · rw [if_pos hig] at hr
      exact (List.mem_filter.mp hr).1
    · rw [if_neg hig] at hr
      exact hr
  by_cases hd : in_docs r = true
  · exfalso
    obtain ⟨s2, hs2⟩ := pathSegs_docs r hd
    rcases hfacts.2.1 r hrp with ⟨hmem, _⟩ | ⟨pat, hpat, hx⟩
    · have : ∀ x ∈ ALWAYS_HOT_FILES, in_docs x = false := by decide
      rw [this r hmem] at hd
      cases hd
    · have hglob : globMatchStr pat r = true := by
        unfold _iter_glob at hx
        exact (bool_and_true (List.mem_filter.mp hx).2).1
      unfold globMatchStr globSegsMatch at hglob
      rw [hs2] at hglob
      simp only [ALWAYS_HOT_GLOBS, List.mem_cons, List.not_mem_nil, or_false] at hpat
      rcases hpat with hp | hp | hp | hp <;> subst hp
      · have h2 : (fnmatchStr ".claude" "docs" &&
            globSegsGo (4 + ("docs" :: s2).length) ["rules", "**", "*.md"] s2) = true :=
          hglob
        obtain ⟨t, hticks⟩ := fnmatchGo_dot_head (7 + ("docs" : String).data.length)
          ("claude").data ("docs" : String).data (bool_and_true h2).1
        cases hticks
      · have h2 : (fnmatchStr ".cursor" "docs" &&
            globSegsGo (4 + ("docs" :: s2).length) ["rules", "**", "*.mdc"] s2) = true :=
          hglob
        obtain ⟨t, hticks⟩ := fnmatchGo_dot_head (7 + ("docs" : String).data.length)
          ("cursor").data ("docs" : String).data (bool_and_true h2).1
        cases hticks
      · have h2 : (fnmatchStr ".windsurf" "docs" &&
            globSegsGo (4 + ("docs" :: s2).length) ["rules", "**", "*.md"] s2) = true :=
          hglob
        obtain ⟨t, hticks⟩ := fnmatchGo_dot_head (9 + ("docs" : String).data.length)
          ("windsurf").data ("docs" : String).data (bool_and_true h2).1
        cases hticks
      · have h2 : (fnmatchStr ".windsurf" "docs" &&
            globSegsGo (4 + ("docs" :: s2).length) ["rules", "**", "*.mdc"] s2) = true :=
          hglob
        obtain ⟨t, hticks⟩ := fnmatchGo_dot_head (9 + ("docs" : String).data.length)
          ("windsurf").data ("docs" : String).data (bool_and_true h2).1
        cases hticks
  · cases hx : in_docs r
    · rfl
    · exact absurd hx hd

/-! ## Hard-flag characterization -/

theorem dupDiagOf_soft (fset : List String) (locs : List (String × Nat)) :
    (dupDiagOf fset locs).hard = false := by
  cases fset <;> rfl

theorem dup_fold_soft (l : List (String × List (String × Nat))) :
    ∀ st : List (List String) × List Diagnostic,
      (∀ d ∈ st.2, d.hard = false) →
      ∀ d ∈ (l.foldl
          (fun st kv =>
            let fset := canonSet (kv.2.map Prod.fst)
            if fset.length < 2 then st
            else if st.1.contains fset then st
            else (st.1 ++ [fset], st.2 ++ [dupDiagOf fset kv.2])) st).2,
        d.hard = false := by
  induction l with
  | nil => intro st h; exact h
  | cons kv rest ih =>
      intro st h
      simp only [List.foldl_cons]
      by_cases h1 : (canonSet (kv.2.map Prod.fst)).length < 2
      · refine ih _ ?_
        simp only [if_pos h1]
        exact h
      · by_cases h2 : st.1.contains (canonSet (kv.2.map Prod.fst)) = true
        · refine ih _ ?_
          simp only [if_neg h1, if_pos h2]
          exact h
        · refine ih _ ?_
          simp only [if_neg h1, if_neg h2]
          intro d hd
          rcases List.mem_append.mp hd with h3 | h3
          · exact h d h3
          · rw [List.mem_singleton.mp h3]
            exact dupDiagOf_soft _ _

theorem dup_diags_soft (fs : FS) (files : List String) :
    ∀ d ∈ _check_duplicates fs files, d.hard = false := by
  unfold _check_duplicates
  exact dup_fold_soft _ ([], []) (fun d hd => absurd hd (List.not_mem_nil d))

theorem router_diags_soft (fs : FS) (cfg : Config) :
    ∀ d ∈ _check_router_sanity fs cfg, d.hard = false := by
  rw [router_sanity_eq]
  intro d hd
  obtain ⟨name, _, hdm⟩ := List.mem_flatMap.mp hd
  revert hdm
  cases h : fsRead fs name with
  | none => intro hdm; cases hdm
  | some text =>
      intro hdm
      rcases List.mem_append.mp hdm with h1 | h1
      · by_cases hc : (lineCount text : Int) > cfg.router_warn_lines
        · rw [if_pos hc] at h1
          rw [List.mem_singleton.mp h1]
          rfl
        · rw [if_neg hc] at h1; cases h1
      · by_cases hc : pointerFound text = true
        · rw [if_pos hc] at h1; cases h1
        · rw [if_neg hc] at h1
          rw [List.mem_singleton.mp h1]
          rfl

theorem broken_refs_eq_flatMap (root : List String) (fs : FS)
    (files : List String) (cfg : Config) :
    _check_broken_refs root fs files cfg =
      files.flatMap (fun f => _check_refs_in_file root fs f f cfg) := by
  unfold _check_broken_refs
  rw [foldl_step_flatMap _ _ (fun acc f => rfl) files []]
  simp

theorem refs_file_hard (root : List String) (fs : FS) (fpath rel : String)
    (cfg : Config) :
    ∀ d ∈ _check_refs_in_file root fs fpath rel cfg, d.hard = true →
      ∃ ref ln, d = brokenRefDiag rel ref ln ∧ refIsBroken root fs ref := by
  intro d hd hhard
  cases hread : fsRead fs fpath with
  | none =>
      unfold _check_refs_in_file at hd
      rw [hread] at hd
      cases hd
  | some raw =>
      rw [check_refs_in_file_eq root fs fpath rel cfg raw hread] at hd
      obtain ⟨p, _, hdp⟩ := List.mem_flatMap.mp hd
      rcases refDiagFor_mem root fs rel p.1 p.2 d hdp with ⟨hde, hbrk⟩ | ⟨hde, _⟩
      · exact ⟨p.2, p.1, hde, hbrk⟩
      · rw [hde] at hhard
        simp [escapeRefDiag] at hhard

theorem run_checks_hard_shapes (root : List String) (fs : FS)
    (cfg : Config) (cd : Bool) :
    (∀ d ∈ (run_checks root fs cfg cd).diagnostics, d.hard = true →
      (∃ rel content, fsRead fs rel = some content ∧
         rel ∈ (_discover_context_files fs cfg).1 ∧
         rel ∈ (_discover_context_files fs cfg).2 ∧
         (lineCount content : Int) ≥ error_limit cfg rel ∧
         d = budgetHardDiag cfg rel (lineCount content)) ∨
      (∃ rel ref ln, d = brokenRefDiag rel ref ln ∧ refIsBroken root fs ref)) ∧
    (∀ d ∈ _check_router_sanity fs cfg, d.hard = false) ∧
    (∀ d ∈ _check_duplicates fs (_discover_context_files fs cfg).1,
       d.hard = false) := by
  refine ⟨?_, router_diags_soft fs cfg, dup_diags_soft fs _⟩
  intro d hd hhard
  unfold run_checks at hd
  simp only [List.mem_append] at hd
  rcases hd with ((hd | hd) | hd) | hd
  · left
    rw [check_line_budget_eq] at hd
    obtain ⟨rel, hrel, hdm⟩ := List.mem_flatMap.mp hd
    revert hdm
    cases hread : fsRead fs rel with
    | none => intro hdm; cases hdm
    | some content =>
        intro hdm
        have h1 := budgetDiags_mem _ _ _ _ _ hdm
        obtain ⟨hhot, hge, hde⟩ := h1.2.2 hhard
        exact ⟨rel, content, hread, hrel, contains_true_iff.mp hhot, hge, hde⟩
  · right
    rw [broken_refs_eq_flatMap] at hd
    obtain ⟨f, _, hdm⟩ := List.mem_flatMap.mp hd
    obtain ⟨ref, ln, hde, hbrk⟩ := refs_file_hard root fs f f cfg d hdm hhard
    exact ⟨f, ref, ln, hde, hbrk⟩
  · exact absurd hhard (by rw [router_diags_soft fs cfg d hd]; simp)
  · revert hd
    cases cd
    · intro hd; cases hd
    · intro hd
      exact absurd hhard (by rw [dup_diags_soft fs _ d hd]; simp)

/-- C1: every hard diagnostic of `run_checks` is either the hard
line-budget diagnostic of a hot discovered file whose line count reaches
its applicable hard limit, or a broken-ref diagnostic for an in-root
reference whose target does not exist; router-sanity and duplicate-block
diagnostics (and, per the two shapes, escape-ref and soft line-count
diagnostics) are never hard. -/
theorem run_checks_hard_only_budget_or_refs (root : List String) (fs : FS)
    (cfg : Config) (cd : Bool) :
    (∀ d ∈ (run_checks root fs cfg cd).diagnostics, d.hard = true →
      (∃ rel content, fsRead fs rel = some content ∧
         rel ∈ (_discover_context_files fs cfg).1 ∧
         rel ∈ (_discover_context_files fs cfg).2 ∧
         (lineCount content : Int) ≥ error_limit cfg rel ∧
         d = budgetHardDiag cfg rel (lineCount content)) ∨
      (∃ rel ref ln, d = brokenRefDiag rel ref ln ∧ refIsBroken root fs ref)) ∧
    (∀ d ∈ _check_router_sanity fs cfg, d.hard = false) ∧
    (∀ d ∈ _check_duplicates fs (_discover_context_files fs cfg).1,
       d.hard = false) :=
  run_checks_hard_shapes root fs cfg cd

/-- C1 witness: a hot 2-line `.cursorrules` with hard limit 2 produces a
hard diagnostic, and the characterization identifies it as a line-budget
hard. -/
theorem run_checks_hard_only_budget_or_refs_witness :
    (∃ rel content, fsRead (⟨[(".cursorrules", "a\nb")]⟩ : FS) rel = some content ∧
       rel ∈ (_discover_context_files ⟨[(".cursorrules", "a\nb")]⟩
         { default_error := 2 }).1 ∧
       rel ∈ (_discover_context_files ⟨[(".cursorrules", "a\nb")]⟩
         { default_error := 2 }).2 ∧
       (lineCount content : Int) ≥ error_limit { default_error := 2 } rel ∧
       budgetHardDiag { default_error := 2 } ".cursorrules" 2 =
         budgetHardDiag { default_error := 2 } rel (lineCount content)) ∨
    (∃ rel ref ln, budgetHardDiag { default_error := 2 } ".cursorrules" 2 =
       brokenRefDiag rel ref ln ∧ refIsBroken ["repo"] ⟨[(".cursorrules", "a\nb")]⟩ ref) := by
  exact (run_checks_hard_only_budget_or_refs ["repo"] ⟨[(".cursorrules", "a\nb")]⟩
    { default_error := 2 } true).1
    (budgetHardDiag { default_error := 2 } ".cursorrules" 2)
    (by decide) (by decide)

/-! ## Docs exemption -/

theorem discover_found_nodup (fs : FS) (cfg : Config) :
    (_discover_context_files fs cfg).1.Nodup := by
  rw [discover_eq_pipeline]
  have hnd := (pipeline_facts fs cfg).1.2
  have hsortnd : (sortBy strLeB (discoverPipeline fs cfg).found).Nodup :=
    ((sortBy_perm strLeB _).nodup_iff).mpr hnd
  by_cases hig : cfg.ignore_paths ≠ []
  · rw [if_pos hig]
    exact hsortnd.filter _
  · rw [if_neg hig]
    exact hsortnd

theorem filter_path_flatMap (g : String → List Diagnostic) (rel : String)
    (hpaths : ∀ rel2 d, d ∈ g rel2 → d.path = rel2) :
    ∀ files : List String, files.Nodup → rel ∈ files →
      ((files.flatMap g).filter (fun d => d.path == rel)) =
        g rel := by
  intro files
  induction files with
  | nil => intro _ h; cases h
  | cons f rest ih =>
      intro hnd hmem
      simp only [List.flatMap_cons, List.filter_append]
      simp only [List.nodup_cons] at hnd
      by_cases hf : f = rel
      · subst hf
        have h1 : (g f).filter (fun d => d.path == f) = g f := by
          apply List.filter_eq_self.mpr
          intro d hd
          rw [hpaths f d hd]
          exact beq_self_eq_true f
        have h2 : ((rest.flatMap g).filter (fun d => d.path == f)) = [] := by
          apply List.filter_eq_nil_iff.mpr
          intro d hd
          obtain ⟨r2, hr2, hdm⟩ := List.mem_flatMap.mp hd
          rw [hpaths r2 d hdm]
          intro hbeq
          exact hnd.1 (beq_iff_eq.mp hbeq ▸ hr2)
        rw [h1, h2, List.append_nil]
      · have h1 : (g f).filter (fun d => d.path == rel) = [] := by
          apply List.filter_eq_nil_iff.mpr
          intro d hd
          rw [hpaths f d hd]
          intro hbeq
          exact hf (beq_iff_eq.mp hbeq)
        rw [h1, List.nil_append]
        rcases List.mem_cons.mp hmem with he | hm
        · exact absurd he.symm hf
        · exact ih hnd.2 hm

/-- C3: a discovered file under `docs/` never receives a hard line-budget
diagnostic: within the line-budget check its diagnostics are exactly the
single non-hard splitting advice once the count reaches the warning
threshold (whatever the hard threshold or override), and any hard
`run_checks` diagnostic carrying its path can only be a broken-reference
diagnostic. -/
theorem docs_files_never_hard (fs : FS) (cfg : Config) (cd : Bool)
    (root : List String) (rel content : String)
    (hmem : rel ∈ (_discover_context_files fs cfg).1)
    (hdocs : in_docs rel = true)
    (hread : fsRead fs rel = some content) :
    ((_check_line_budget fs (_discover_context_files fs cfg).1
        (_discover_context_files fs cfg).2 cfg).1.filter
          (fun d => d.path == rel)) =
      (if (lineCount content : Int) ≥ cfg.default_warn
       then [docsSplitDiag rel (lineCount content)] else []) ∧
    (∀ d ∈ (run_checks root fs cfg cd).diagnostics, d.path = rel →
       d.hard = true →
       ∃ ref ln, d = brokenRefDiag rel ref ln ∧ refIsBroken root fs ref) := by
  have hcont : (_discover_context_files fs cfg).2.contains rel = false := by
    cases hx : (_discover_context_files fs cfg).2.contains rel
    · rfl
    · have := hot_rel_not_docs fs cfg rel (contains_true_iff.mp hx)
      rw [this] at hdocs
      cases hdocs
  constructor
  · rw [check_line_budget_eq]
    rw [filter_path_flatMap _ rel ?hp _ (discover_found_nodup fs cfg) hmem]
    case hp =>
      intro rel2 d hd
      revert hd
      cases hx : fsRead fs rel2 with
      | none => intro hd; cases hd
      | some c2 =>
          intro hd
          exact (budgetDiags_mem _ _ _ _ _ hd).1
    rw [hread]
    show budgetDiags cfg ((_discover_context_files fs cfg).2.contains rel) rel
      (lineCount content) = _
    rw [hcont]
    unfold budgetDiags docsSplitDiag
    rw [if_neg (by simp)]
    by_cases hw : (lineCount content : Int) ≥ cfg.default_warn
    · rw [if_pos hw, if_pos hdocs, if_pos hw]
    · rw [if_neg hw, if_neg hw]
  · intro d hd hpath hhard
    rcases (run_checks_hard_shapes root fs cfg cd).1 d hd hhard with
      ⟨rel2, c2, _, _, hhot2, _, hde⟩ | ⟨rel2, ref, ln, hde, hbrk⟩
    · exfalso
      have hp2 : d.path = rel2 := by rw [hde]; rfl
      rw [hpath] at hp2
      rw [← hp2] at hhot2
      have := hot_rel_not_docs fs cfg rel hhot2
      rw [this] at hdocs
      cases hdocs
    · have hp2 : d.path = rel2 := by rw [hde]; rfl
      rw [hpath] at hp2
      rw [← hp2] at hde
      exact ⟨ref, ln, hde, hbrk⟩

/-- C3 witness: `docs/guide.md` with 3 lines under `default_warn := 2`,
`default_error := 3` (count at the hard limit) yields exactly the single
soft splitting diagnostic and no hard diagnostic. -/
theorem docs_files_never_hard_witness :
    ((_check_line_budget ⟨[("docs/guide.md", "a\nb\nc")]⟩
        (_discover_context_files ⟨[("docs/guide.md", "a\nb\nc")]⟩
          { default_warn := 2, default_error := 3 }).1
        (_discover_context_files ⟨[("docs/guide.md", "a\nb\nc")]⟩
          { default_warn := 2, default_error := 3 }).2
        { default_warn := 2, default_error := 3 }).1.filter
          (fun d => d.path == "docs/guide.md")) =
      [docsSplitDiag "docs/guide.md" 3] := by
  have h := (docs_files_never_hard ⟨[("docs/guide.md", "a\nb\nc")]⟩
    { default_warn := 2, default_error := 3 } true ["repo"]
    "docs/guide.md" "a\nb\nc" (by decide) (by decide) (by decide)).1
  rw [h]
  decide

/-! ## Ignored router files -/

theorem discover_not_ignored (fs : FS) (cfg : Config) :
    ∀ f ∈ (_discover_context_files fs cfg).1,
      _is_ignored f cfg.ignore_paths = false := by
  rw [discover_eq_pipeline]
  by_cases hig : cfg.ignore_paths ≠ []
  · rw [if_pos hig]
    intro f hf
    have h2 := (List.mem_filter.mp hf).2
    cases hx : _is_ignored f cfg.ignore_paths
    · rfl
    · rw [hx] at h2; cases h2
  · rw [if_neg hig]
    push_neg at hig
    intro f _
    rw [hig]
    rfl

/-- C10: a router file whose repo-relative path matches `ignore_paths` is
absent from discovery (hence from the line-budget check and `file_sizes`),
yet the router-sanity check still reads it straight from the root: its
length and missing-pointer diagnostics still reach the `run_checks`
output. -/
theorem ignored_router_still_checked (root : List String) (fs : FS)
    (cfg : Config) (cd : Bool) (name : String)
    (hname : name ∈ ROUTER_FILES_SORTED)
    (hig : _is_ignored name cfg.ignore_paths = true) :
    (name ∉ (_discover_context_files fs cfg).1) ∧
    (∀ kv ∈ (run_checks root fs cfg cd).file_sizes, kv.1 ≠ name) ∧
    (∀ d ∈ _check_router_sanity fs cfg,
       d ∈ (run_checks root fs cfg cd).diagnostics) ∧
    (∀ text, fsRead fs name = some text →
      ((cfg.router_warn_lines < (lineCount text : Int)) →
         routerLongDiag cfg name (lineCount text) ∈
           (run_checks root fs cfg cd).diagnostics) ∧
      (pointerFound text = false →
         routerPointerDiag name ∈ (run_checks root fs cfg cd).diagnostics)) := by
  have hnot : name ∉ (_discover_context_files fs cfg).1 := by
    intro hmem
    have := discover_not_ignored fs cfg name hmem
    rw [this] at hig
    cases hig
  have hrouter : ∀ d ∈ _check_router_sanity fs cfg,
      d ∈ (run_checks root fs cfg cd).diagnostics := by
    intro d hd
    unfold run_checks
    simp only [List.mem_append]
    exact Or.inl (Or.inr hd)
  refine ⟨hnot, ?_, hrouter, ?_⟩
  · intro kv hkv
    have hkv2 : kv ∈ (_check_line_budget fs (_discover_context_files fs cfg).1
        (_discover_context_files fs cfg).2 cfg).2 := hkv
    rw [check_line_budget_eq] at hkv2
    obtain ⟨rel, hrel, hkvm⟩ := List.mem_flatMap.mp hkv2
    revert hkvm
    cases hx : fsRead fs rel with
    | none => intro hkvm; cases hkvm
    | some c =>
        intro hkvm
        rw [List.mem_singleton.mp hkvm]
        intro he
        exact hnot (he ▸ hrel)
  · intro text hread
    constructor
    · intro hlong
      refine hrouter _ ?_
      rw [router_sanity_eq]
      refine List.mem_flatMap.mpr ⟨name, hname, ?_⟩
      rw [hread]
      refine List.mem_append.mpr (Or.inl ?_)
      rw [if_pos hlong]
      simp
    · intro hpf
      refine hrouter _ ?_
      rw [router_sanity_eq]
      refine List.mem_flatMap.mpr ⟨name, hname, ?_⟩
      rw [hread]
      refine List.mem_append.mpr (Or.inr ?_)
      rw [hpf]
      simp

/-- C10 witness: `CLAUDE.md` matching `ignore_paths` is absent from
discovery and `file_sizes` but still yields both router diagnostics in the
`run_checks` output. -/
theorem ignored_router_still_checked_witness :
    ("CLAUDE.md" ∉ (_discover_context_files ⟨[("CLAUDE.md", "hi\nthere")]⟩
       { router_warn_lines := 1, ignore_paths := ["CLAUDE.md"] }).1) ∧
    (routerLongDiag { router_warn_lines := 1, ignore_paths := ["CLAUDE.md"] }
        "CLAUDE.md" (lineCount "hi\nthere") ∈
      (run_checks ["repo"] ⟨[("CLAUDE.md", "hi\nthere")]⟩
        { router_warn_lines := 1, ignore_paths := ["CLAUDE.md"] } true).diagnostics) ∧
    (routerPointerDiag "CLAUDE.md" ∈
      (run_checks ["repo"] ⟨[("CLAUDE.md", "hi\nthere")]⟩
        { router_warn_lines := 1, ignore_paths := ["CLAUDE.md"] } true).diagnostics) := by
  have h := ignored_router_still_checked ["repo"] ⟨[("CLAUDE.md", "hi\nthere")]⟩
    { router_warn_lines := 1, ignore_paths := ["CLAUDE.md"] } true "CLAUDE.md"
    (by decide) (by decide)
  exact ⟨h.1, (h.2.2.2 "hi\nthere" rfl).1 (by decide),
    (h.2.2.2 "hi\nthere" rfl).2 (by decide)⟩

/-! ## Configuration loader -/

/-- C2 counterexample: `load_config` DOES propagate exceptions for some
JSON-object configs — `int(None)` raises `TypeError` (only `json.loads` is
inside the `try`), and a non-numeric string raises `ValueError` in the
legacy branch — refuting the claim that every JSON object yields a Config. -/
theorem load_config_raises_cex :
    load_config (.parsed (.obj [("line_budget", .obj [("default_warn", .null)])])) =
      .error .typeError ∧
    load_config (.parsed (.obj [("soft_warn_lines", .str "abc")])) =
      .error .valueError := ⟨rfl, rfl⟩

/-- C2 (amended): `load_config` returns the all-default `Config` (never an
exception) whenever the config file is absent, unparseable, or parses to a
non-object JSON document; for object documents the unguarded `int()` /
`set()` / `list()` conversions can propagate `TypeError`/`ValueError` when
fields hold unsuitable values (e.g. a `null` line-budget entry). -/
theorem load_config_defaults_on_bad_input (src : ConfigSrc)
    (h : ∀ kvs, src ≠ .parsed (.obj kvs)) :
    load_config src = .ok {} := by
  cases src with
  | absent => rfl
  | unparseable => rfl
  | parsed j =>
      cases j with
      | null => rfl
      | bool b => rfl
      | int n => rfl
      | float t nz => rfl
      | str s => rfl
      | arr xs => rfl
      | obj kvs => exact absurd rfl (h kvs)

/-- C2 witness: a parsed top-level JSON array yields the all-default
Config. -/
theorem load_config_defaults_on_bad_input_witness :
    load_config (.parsed (.arr [.str "x"])) = .ok {} := by
  refine load_config_defaults_on_bad_input (.parsed (.arr [.str "x"])) ?_
  intro kvs hc
  injection hc with h2
  exact Json.noConfusion h2

/-! ## Duplicate-detector structure -/

theorem dedupSkip_not_mem {α : Type} [DecidableEq α] :
    ∀ (L acc : List α) (x : α), x ∈ dedupSkip acc L → x ∉ acc := by
  intro L
  induction L with
  | nil => intro acc x hx; cases hx
  | cons y l ih =>
      intro acc x hx
      by_cases hy : acc.contains y = true
      · simp only [dedupSkip, if_pos hy] at hx
        exact ih acc x hx
      · simp only [dedupSkip, if_neg hy] at hx
        rcases List.mem_cons.mp hx with h | h
        · rw [h]
          intro hm
          exact hy (contains_true_iff.mpr hm)
        · intro hm
          exact ih (acc ++ [y]) x h (List.mem_append.mpr (Or.inl hm))

theorem foldl_dedupFirst_eq {α : Type} [DecidableEq α] :
    ∀ (L acc : List α),
      L.foldl (fun acc x => if acc.contains x then acc else acc ++ [x]) acc =
        acc ++ dedupSkip acc L := by
  intro L
  induction L with
  | nil => intro acc; simp [dedupSkip]
  | cons x l ih =>
      intro acc
      simp only [List.foldl_cons, dedupSkip]
      by_cases hx : acc.contains x = true
      · rw [if_pos hx, if_pos hx, ih]
      · rw [if_neg hx, if_neg hx, ih]
        simp

theorem dedupFirst_eq_dedupSkip {α : Type} [DecidableEq α] (L : List α) :
    dedupFirst L = dedupSkip [] L := by
  unfold dedupFirst
  rw [foldl_dedupFirst_eq]
  simp

theorem dup_foldl_eq_dupGo
    (l : List (String × List (String × Nat))) :
    ∀ st : List (List String) × List Diagnostic,
      (l.foldl
        (fun st kv =>
          let fset := canonSet (kv.2.map Prod.fst)
          if fset.length < 2 then st
          else if st.1.contains fset then st
          else (st.1 ++ [fset], st.2 ++ [dupDiagOf fset kv.2])) st).2 =
        st.2 ++ dupGo st.1 l := by
  induction l with
  | nil => intro st; simp [dupGo]
  | cons kv rest ih =>
      intro st
      simp only [List.foldl_cons]
      rw [ih]
      by_cases h1 : (canonSet (kv.2.map Prod.fst)).length < 2
      · simp [dupGo, h1]
      · by_cases h2 : st.1.contains (canonSet (kv.2.map Prod.fst)) = true
        · have h2m : canonSet (kv.2.map Prod.fst) ∈ st.1 :=
            contains_true_iff.mp h2
          simp [dupGo, h1, h2m]
        · have h2m : canonSet (kv.2.map Prod.fst) ∉ st.1 :=
            fun hm => h2 (contains_true_iff.mpr hm)
          simp [dupGo, h1, h2m]

theorem check_duplicates_eq_dupGo (fs : FS) (files : List String) :
    _check_duplicates fs files =
      dupGo [] (sortBy (fun a b => strLeB a.1 b.1)
        (fpToLocs (fileWindowsMap fs files))) := by
  unfold _check_duplicates
  rw [dup_foldl_eq_dupGo]
  simp

theorem dupGo_filter :
    ∀ (l : List (String × List (String × Nat))) (R : List (List String)),
      dupGo R l =
        dupGo R (l.filter
          (fun kv => 2 ≤ (canonSet (kv.2.map Prod.fst)).length)) := by
  intro l
  induction l with
  | nil => intro R; rfl
  | cons kv rest ih =>
      intro R
      by_cases h1 : (canonSet (kv.2.map Prod.fst)).length < 2
      · rw [List.filter_cons_of_neg (by simp; omega)]
        simp only [dupGo, if_pos h1]
        exact ih R
      · rw [List.filter_cons_of_pos (by simp; omega)]
        simp only [dupGo, if_neg h1]
        by_cases h2 : R.contains (canonSet (kv.2.map Prod.fst)) = true
        · rw [if_pos h2, if_pos h2]
          exact ih R
        · rw [if_neg h2, if_neg h2, ih (R ++ [canonSet (kv.2.map Prod.fst)])]

theorem dedupSkip_cons_mem {α : Type} [DecidableEq α] (acc : List α)
    (x : α) (l : List α) (h : x ∈ acc) :
    dedupSkip acc (x :: l) = dedupSkip acc l := by
  simp [dedupSkip, h]

theorem dedupSkip_cons_not_mem {α : Type} [DecidableEq α] (acc : List α)
    (x : α) (l : List α) (h : x ∉ acc) :
    dedupSkip acc (x :: l) = x :: dedupSkip (acc ++ [x]) l := by
  simp [dedupSkip, h]

theorem dupGo_spec :
    ∀ (l : List (String × List (String × Nat))) (R : List (List String)),
      (∀ kv ∈ l, 2 ≤ (canonSet (kv.2.map Prod.fst)).length) →
      dupGo R l =
        (dedupSkip R (l.map (fun kv => canonSet (kv.2.map Prod.fst)))).map
          (fun S =>
            match l.find? (fun kv => canonSet (kv.2.map Prod.fst) = S) with
            | some kv => dupDiagOf S kv.2
            | none => ⟨"", "", false, 0⟩) := by
  intro l
  induction l with
  | nil => intro R h; rfl
  | cons kv rest ih =>
      intro R hq
      have hk2 : 2 ≤ (canonSet (kv.2.map Prod.fst)).length :=
        hq kv (List.mem_cons_self kv rest)
      have hk1 : ¬ (canonSet (kv.2.map Prod.fst)).length < 2 := by omega
      simp only [dupGo, if_neg hk1, List.map_cons]
      by_cases hR : R.contains (canonSet (kv.2.map Prod.fst)) = true
      · have hRm : canonSet (kv.2.map Prod.fst) ∈ R := contains_true_iff.mp hR
        rw [if_pos hR, dedupSkip_cons_mem _ _ _ hRm,
          ih R (fun kv2 h2 => hq kv2 (List.mem_cons_of_mem kv h2))]
        refine List.map_congr_left ?_
        intro S hS
        have hSR : S ∉ R := dedupSkip_not_mem _ R S hS
        have hne : ¬ (canonSet (kv.2.map Prod.fst) = S) := by
          intro he
          exact hSR (he ▸ hRm)
        rw [List.find?_cons_of_neg _ (by simpa using hne)]
      · have hRm : canonSet (kv.2.map Prod.fst) ∉ R :=
          fun hm => hR (contains_true_iff.mpr hm)
        rw [if_neg hR, dedupSkip_cons_not_mem _ _ _ hRm,
          ih (R ++ [canonSet (kv.2.map Prod.fst)])
            (fun kv2 h2 => hq kv2 (List.mem_cons_of_mem kv h2)),
          List.map_cons]
        congr 1
        · rw [List.find?_cons_of_pos _ (by simp)]
        · refine List.map_congr_left ?_
          intro S hS
          have hSR : S ∉ R ++ [canonSet (kv.2.map Prod.fst)] :=
            dedupSkip_not_mem _ _ S hS
          have hne : ¬ (canonSet (kv.2.map Prod.fst) = S) := by
            intro he
            exact hSR (he ▸ List.mem_append_right R (List.mem_singleton_self _))
          rw [List.find?_cons_of_neg _ (by simpa using hne)]

/-- C6: the duplicate detector emits exactly one diagnostic per distinct
sharing file-set, even when that set shares several separate duplicated
regions: `_check_duplicates` coincides with the spec-side pipeline
`specDupDiags`, which takes the qualifying fingerprints in sorted order,
keeps the first fingerprint of each distinct file-set, and reports it via
`dupDiagOf` — attached to the alphabetically first member of the set at its
earliest matching line, naming each other member with its earliest matching
line. -/
theorem dup_one_diag_per_fileset (fs : FS) (files : List String) :
    _check_duplicates fs files = specDupDiags fs files := by
  rw [check_duplicates_eq_dupGo, dupGo_filter]
  show dupGo [] (qualifyingFps fs files) = specDupDiags fs files
  have hq : ∀ kv ∈ qualifyingFps fs files,
      2 ≤ (canonSet (kv.2.map Prod.fst)).length := by
    intro kv hkv
    have := (List.mem_filter.mp hkv).2
    simpa using this
  rw [dupGo_spec (qualifyingFps fs files) [] hq]
  simp only [specDupDiags]
  rw [dedupFirst_eq_dedupSkip]

theorem dupGo_nil_of_skip :
    ∀ (l : List (String × List (String × Nat))) (R : List (List String)),
      (∀ kv ∈ l, (canonSet (kv.2.map Prod.fst)).length < 2 ∨
        canonSet (kv.2.map Prod.fst) ∈ R) →
      dupGo R l = [] := by
  intro l
  induction l with
  | nil => intro R h; rfl
  | cons kv rest ih =>
      intro R h
      rcases h kv (List.mem_cons_self kv rest) with h1 | h1
      · simp only [dupGo, if_pos h1]
        exact ih R (fun kv2 h2 => h kv2 (List.mem_cons_of_mem kv h2))
      · by_cases hl : (canonSet (kv.2.map Prod.fst)).length < 2
        · simp only [dupGo, if_pos hl]
          exact ih R (fun kv2 h2 => h kv2 (List.mem_cons_of_mem kv h2))
        · have hc : R.contains (canonSet (kv.2.map Prod.fst)) = true :=
            contains_true_iff.mpr h1
          simp only [dupGo, if_neg hl, if_pos hc]
          exact ih R (fun kv2 h2 => h kv2 (List.mem_cons_of_mem kv h2))

theorem dupGo_single_len :
    ∀ (l : List (String × List (String × Nat))) (R : List (List String))
      (S : List String), 2 ≤ S.length → S ∉ R →
      (∀ kv ∈ l, canonSet (kv.2.map Prod.fst) = S ∨
        (canonSet (kv.2.map Prod.fst)).length < 2) →
      (∃ kv ∈ l, canonSet (kv.2.map Prod.fst) = S) →
      (dupGo R l).length = 1 := by
  intro l
  induction l with
  | nil =>
      intro R S _ _ _ hex
      rcases hex with ⟨kv, hm, _⟩
      cases hm
  | cons kv rest ih =>
      intro R S hS2 hSR hall hex
      by_cases hk : canonSet (kv.2.map Prod.fst) = S
      · have hl : ¬ (canonSet (kv.2.map Prod.fst)).length < 2 := by
          rw [hk]; omega
        have hc : ¬ (R.contains (canonSet (kv.2.map Prod.fst)) = true) :=
          fun hx => hSR (hk ▸ contains_true_iff.mp hx)
        simp only [dupGo, if_neg hl, if_neg hc]
        rw [List.length_cons,
          dupGo_nil_of_skip rest (R ++ [canonSet (kv.2.map Prod.fst)]) ?_]
        · rfl
        · intro kv2 h2
          rcases hall kv2 (List.mem_cons_of_mem kv h2) with h3 | h3
          · right
            rw [h3, ← hk]
            exact List.mem_append_right R (List.mem_singleton_self _)
          · left
            exact h3
      · rcases hall kv (List.mem_cons_self kv rest) with h3 | h3
        · exact absurd h3 hk
        · simp only [dupGo, if_pos h3]
          refine ih R S hS2 hSR
            (fun kv2 h2 => hall kv2 (List.mem_cons_of_mem kv h2)) ?_
          rcases hex with ⟨kv0, hm0, hk0⟩
          rcases List.mem_cons.mp hm0 with he | hm1
          · exact absurd (he ▸ hk0) hk
          · exact ⟨kv0, hm1, hk0⟩

theorem fileWindowsMap_master (fs : FS) (files : List String) :
    ∀ (l : List String) (acc : List (String × List (Nat × String))),
      (∀ r ∈ l, r ∈ files) →
      (∀ rw2 ∈ acc, rw2.1 ∈ files ∧ ∃ raw, fsRead fs rw2.1 = some raw ∧
        rw2.2 = fileWindows raw) →
      ∀ rw2 ∈ l.foldl
        (fun acc rel =>
          match fsRead fs rel with
          | none => acc
          | some raw =>
              if (normLines raw).length < _DUP_MIN_LINES then acc
              else if (acc.map Prod.fst).contains rel then acc
              else acc ++ [(rel, fileWindows raw)]) acc,
        rw2.1 ∈ files ∧ ∃ raw, fsRead fs rw2.1 = some raw ∧
          rw2.2 = fileWindows raw := by
  intro l
  induction l with
  | nil => intro acc _ hacc; exact hacc
  | cons rel rest ih =>
      intro acc hsub hacc
      simp only [List.foldl_cons]
      refine ih _ (fun r hr => hsub r (List.mem_cons_of_mem rel hr)) ?_
      cases hread : fsRead fs rel with
      | none =>
          simp only [hread]
          exact hacc
      | some raw =>
          simp only [hread]
          by_cases h4 : (normLines raw).length < _DUP_MIN_LINES
          · rw [if_pos h4]
            exact hacc
          · rw [if_neg h4]
            by_cases hc : ((acc.map Prod.fst).contains rel) = true
            · rw [if_pos hc]
              exact hacc
            · rw [if_neg hc]
              intro rw2 h2
              rcases List.mem_append.mp h2 with h3 | h3
              · exact hacc rw2 h3
              · rw [List.mem_singleton.mp h3]
                exact ⟨hsub rel (List.mem_cons_self rel rest), raw, hread, rfl⟩

theorem fileWindowsMap_mem (fs : FS) (files : List String) :
    ∀ rw2 ∈ fileWindowsMap fs files,
      rw2.1 ∈ files ∧ ∃ raw, fsRead fs rw2.1 = some raw ∧
        rw2.2 = fileWindows raw :=
  fileWindowsMap_master fs files files [] (fun _ hr => hr)
    (fun rw2 h => absurd h (List.not_mem_nil rw2))

theorem dictAppend_mem (m : List (String × List (String × Nat)))
    (fp : String) (loc : String × Nat) :
    ∀ kv ∈ dictAppend m fp loc, ∀ l ∈ kv.2,
      (∃ kv0 ∈ m, kv0.1 = kv.1 ∧ l ∈ kv0.2) ∨ (kv.1 = fp ∧ l = loc) := by
  intro kv hkv l hl
  unfold dictAppend at hkv
  by_cases hc : ((m.map Prod.fst).contains fp) = true
  · rw [if_pos hc] at hkv
    rcases List.mem_map.mp hkv with ⟨kv0, hm0, heq⟩
    rw [← heq] at hl ⊢
    by_cases hf : kv0.1 = fp
    · rw [if_pos hf] at hl ⊢
      rcases List.mem_append.mp hl with h1 | h1
      · exact Or.inl ⟨kv0, hm0, rfl, h1⟩
      · exact Or.inr ⟨hf, List.mem_singleton.mp h1⟩
    · rw [if_neg hf] at hl ⊢
      exact Or.inl ⟨kv0, hm0, rfl, hl⟩
  · rw [if_neg hc] at hkv
    rcases List.mem_append.mp hkv with h1 | h1
    · exact Or.inl ⟨kv, h1, rfl, hl⟩
    · rw [List.mem_singleton.mp h1] at hl ⊢
      exact Or.inr ⟨rfl, List.mem_singleton.mp hl⟩

theorem fpToLocs_inner (Rel : String → String × Nat → Prop) (rel : String) :
    ∀ (ws : List (Nat × String))
      (st : List String × List (String × List (String × Nat))),
      (∀ w ∈ ws, Rel w.2 (rel, w.1)) →
      (∀ kv ∈ st.2, ∀ loc ∈ kv.2, Rel kv.1 loc) →
      ∀ kv ∈ (ws.foldl
        (fun st w =>
          if st.1.contains w.2 then st
          else (st.1 ++ [w.2], dictAppend st.2 w.2 (rel, w.1)))
        st).2,
        ∀ loc ∈ kv.2, Rel kv.1 loc := by
  intro ws
  induction ws with
  | nil => intro st _ hst; exact hst
  | cons w ws ih =>
      intro st hws hst
      simp only [List.foldl_cons]
      refine ih _ (fun w2 h2 => hws w2 (List.mem_cons_of_mem w h2)) ?_
      by_cases hc : (st.1.contains w.2) = true
      · simp only [if_pos hc]
        exact hst
      · simp only [if_neg hc]
        intro kv hkv loc hloc
        rcases dictAppend_mem st.2 w.2 (rel, w.1) kv hkv loc hloc with
          ⟨kv0, hm0, he, hl0⟩ | ⟨he, hl0⟩
        · rw [← he]
          exact hst kv0 hm0 loc hl0
        · rw [he, hl0]
          exact hws w (List.mem_cons_self w ws)

theorem fpToLocs_rel (Rel : String → String × Nat → Prop) :
    ∀ (fwm : List (String × List (Nat × String)))
      (m : List (String × List (String × Nat))),
      (∀ rw2 ∈ fwm, ∀ w ∈ rw2.2, Rel w.2 (rw2.1, w.1)) →
      (∀ kv ∈ m, ∀ loc ∈ kv.2, Rel kv.1 loc) →
      ∀ kv ∈ fwm.foldl
        (fun m rw2 =>
          (rw2.2.foldl
            (fun st w =>
              if st.1.contains w.2 then st
              else (st.1 ++ [w.2], dictAppend st.2 w.2 (rw2.1, w.1)))
            (([] : List String), m)).2) m,
        ∀ loc ∈ kv.2, Rel kv.1 loc := by
  intro fwm
  induction fwm with
  | nil => intro m _ hm; exact hm
  | cons rw2 rest ih =>
      intro m hfwm hm
      simp only [List.foldl_cons]
      refine ih _ (fun r hr => hfwm r (List.mem_cons_of_mem rw2 hr)) ?_
      exact fpToLocs_inner Rel rw2.1 rw2.2 ([], m)
        (fun w hw => hfwm rw2 (List.mem_cons_self rw2 rest) w hw) hm

theorem fpToLocs_mem_rel (Rel : String → String × Nat → Prop)
    (fwm : List (String × List (Nat × String)))
    (h : ∀ rw2 ∈ fwm, ∀ w ∈ rw2.2, Rel w.2 (rw2.1, w.1)) :
    ∀ kv ∈ fpToLocs fwm, ∀ loc ∈ kv.2, Rel kv.1 loc :=
  fpToLocs_rel Rel fwm [] h (fun kv hkv => absurd hkv (List.not_mem_nil kv))

theorem canonSet_two (l : List String)
    (h : 2 ≤ (canonSet l).length) : ∃ a b, a ∈ l ∧ b ∈ l ∧ a ≠ b := by
  have hlen : 2 ≤ l.dedup.length := by
    have hp := (sortBy_perm strLeB l.dedup).length_eq
    unfold canonSet at h
    omega
  cases hd : l.dedup with
  | nil => rw [hd] at hlen; simp at hlen
  | cons a t =>
      cases t with
      | nil => rw [hd] at hlen; simp at hlen
      | cons b t2 =>
          have hnd : (a :: b :: t2).Nodup := hd ▸ l.nodup_dedup
          have hab : a ≠ b := by
            intro he
            exact (List.nodup_cons.mp hnd).1 (he ▸ List.mem_cons_self b t2)
          have ha : a ∈ l := by
            rw [← List.mem_dedup, hd]
            exact List.mem_cons_self a _
          have hb : b ∈ l := by
            rw [← List.mem_dedup, hd]
            exact List.mem_cons_of_mem a (List.mem_cons_self b t2)
          exact ⟨a, b, ha, hb, hab⟩

theorem no_shared_windows_small (fs : FS) (files : List String)
    (h : ∀ a ∈ files, ∀ b ∈ files, a ≠ b →
      ∀ w1 ∈ fsWindowsOf fs a, ∀ w2 ∈ fsWindowsOf fs b, w1.2 ≠ w2.2) :
    ∀ kv ∈ fpToLocs (fileWindowsMap fs files),
      (canonSet (kv.2.map Prod.fst)).length < 2 := by
  intro kv hkv
  by_contra hge
  have h2 : 2 ≤ (canonSet (kv.2.map Prod.fst)).length := by omega
  obtain ⟨a, b, ha, hb, hab⟩ := canonSet_two _ h2
  obtain ⟨la, hla, hla1⟩ := List.mem_map.mp ha
  obtain ⟨lb, hlb, hlb1⟩ := List.mem_map.mp hb
  have hpre : ∀ rw2 ∈ fileWindowsMap fs files, ∀ w ∈ rw2.2,
      rw2.1 ∈ files ∧ (w.1, w.2) ∈ fsWindowsOf fs rw2.1 := by
    intro rw2 hrw2 w hw
    obtain ⟨hf, raw, hread, hwin⟩ := fileWindowsMap_mem fs files rw2 hrw2
    refine ⟨hf, ?_⟩
    unfold fsWindowsOf
    simp only [hread]
    rw [← hwin, Prod.mk.eta]
    exact hw
  have hrel := fpToLocs_mem_rel
    (fun fp loc => loc.1 ∈ files ∧ (loc.2, fp) ∈ fsWindowsOf fs loc.1)
    (fileWindowsMap fs files) hpre kv hkv
  obtain ⟨haf, haw⟩ := hrel la hla
  obtain ⟨hbf, hbw⟩ := hrel lb hlb
  have hne : la.1 ≠ lb.1 := by
    rw [hla1, hlb1]
    exact hab
  exact h la.1 haf lb.1 hbf hne (la.2, kv.1) haw (lb.2, kv.1) hbw rfl

theorem fileWindowsMap_filter_small (fs : FS) (rel : String) (raw : String)
    (hr : fsRead fs rel = some raw)
    (hs : (normLines raw).length < _DUP_MIN_LINES) :
    ∀ (l : List String) (acc : List (String × List (Nat × String))),
      l.foldl
        (fun acc rel =>
          match fsRead fs rel with
          | none => acc
          | some raw =>
              if (normLines raw).length < _DUP_MIN_LINES then acc
              else if (acc.map Prod.fst).contains rel then acc
              else acc ++ [(rel, fileWindows raw)]) acc =
      (l.filter (fun f => f ≠ rel)).foldl
        (fun acc rel =>
          match fsRead fs rel with
          | none => acc
          | some raw =>
              if (normLines raw).length < _DUP_MIN_LINES then acc
              else if (acc.map Prod.fst).contains rel then acc
              else acc ++ [(rel, fileWindows raw)]) acc := by
  intro l
  induction l with
  | nil => intro acc; rfl
  | cons f rest ih =>
      intro acc
      by_cases hf : f = rel
      · rw [List.filter_cons_of_neg (by simp [hf])]
        simp only [List.foldl_cons, hf, hr]
        rw [if_pos hs]
        exact ih acc
      · rw [List.filter_cons_of_pos (by simp [hf])]
        simp only [List.foldl_cons]
        exact ih _

theorem check_duplicates_filter_small (fs : FS) (files : List String)
    (rel : String) (raw : String)
    (hr : fsRead fs rel = some raw)
    (hs : (normLines raw).length < _DUP_MIN_LINES) :
    _check_duplicates fs files =
      _check_duplicates fs (files.filter (fun f => f ≠ rel)) := by
  have hfw : fileWindowsMap fs files =
      fileWindowsMap fs (files.filter (fun f => f ≠ rel)) :=
    fileWindowsMap_filter_small fs rel raw hr hs files []
  rw [check_duplicates_eq_dupGo, check_duplicates_eq_dupGo, hfw]

/-- C7: the duplicate minimum. (1) If no two distinct scanned files share
any 4-normalised-line window fingerprint — in particular when two files
share only 3 consecutive matching lines — `_check_duplicates` reports
nothing. (2) If some file-set S of at least two files shares a fingerprint
and every shared fingerprint is shared by exactly the set S — in particular
when two files share one 4-line block — exactly one diagnostic is produced.
(3) A file whose content has fewer than `_DUP_MIN_LINES` non-blank stripped
lines never participates: removing it from the scanned list leaves the
output unchanged. -/
theorem dup_minimum_props (fs : FS) (files : List String) :
    ((∀ a ∈ files, ∀ b ∈ files, a ≠ b →
        ∀ w1 ∈ fsWindowsOf fs a, ∀ w2 ∈ fsWindowsOf fs b, w1.2 ≠ w2.2) →
      _check_duplicates fs files = [])
    ∧ (∀ S : List String, 2 ≤ S.length →
        (∀ kv ∈ fpToLocs (fileWindowsMap fs files),
          canonSet (kv.2.map Prod.fst) = S ∨
            (canonSet (kv.2.map Prod.fst)).length < 2) →
        (∃ kv ∈ fpToLocs (fileWindowsMap fs files),
          canonSet (kv.2.map Prod.fst) = S) →
        (_check_duplicates fs files).length = 1)
    ∧ (∀ rel raw, fsRead fs rel = some raw →
        (normLines raw).length < _DUP_MIN_LINES →
        _check_duplicates fs files =
          _check_duplicates fs (files.filter (fun f => f ≠ rel))) := by
  refine ⟨?_, ?_, ?_⟩
  · intro h
    rw [check_duplicates_eq_dupGo]
    refine dupGo_nil_of_skip _ [] ?_
    intro kv hkv
    left
    exact no_shared_windows_small fs files h kv
      ((sortBy_perm _ _).mem_iff.mp hkv)
  · intro S hS2 hall hex
    rw [check_duplicates_eq_dupGo]
    refine dupGo_single_len _ [] S hS2 (List.not_mem_nil S) ?_ ?_
    · intro kv hkv
      exact hall kv ((sortBy_perm _ _).mem_iff.mp hkv)
    · rcases hex with ⟨kv, hkv, hk⟩
      exact ⟨kv, (sortBy_perm _ _).mem_iff.mpr hkv, hk⟩
  · intro rel raw hr hs
    exact check_duplicates_filter_small fs files rel raw hr hs

/-- C7 witness: two files sharing only 3 consecutive stripped lines yield
no duplicate diagnostic; two files sharing a 4-line block yield exactly
one; a 2-line file can be dropped from the scan without changing the
output. -/
theorem dup_minimum_props_witness :
    _check_duplicates
        (⟨[("a.md", "x1\nx2\nx3\ny4\n"), ("b.md", "x1\nx2\nx3\nz4\n")]⟩ : FS)
        ["a.md", "b.md"] = [] ∧
    (_check_duplicates
        (⟨[("a.md", "x1\nx2\nx3\nx4\nq1\n"), ("b.md", "x1\nx2\nx3\nx4\nq2\n"),
          ("tiny.md", "t1\nt2\n")]⟩ : FS)
        ["a.md", "b.md"]).length = 1 ∧
    _check_duplicates
        (⟨[("a.md", "x1\nx2\nx3\nx4\nq1\n"), ("b.md", "x1\nx2\nx3\nx4\nq2\n"),
          ("tiny.md", "t1\nt2\n")]⟩ : FS)
        ["a.md", "b.md", "tiny.md"] =
      _check_duplicates
        (⟨[("a.md", "x1\nx2\nx3\nx4\nq1\n"), ("b.md", "x1\nx2\nx3\nx4\nq2\n"),
          ("tiny.md", "t1\nt2\n")]⟩ : FS)
        (["a.md", "b.md", "tiny.md"].filter (fun f => f ≠ "tiny.md")) := by
  refine ⟨?_, ?_, ?_⟩
  · exact (dup_minimum_props
      (⟨[("a.md", "x1\nx2\nx3\ny4\n"), ("b.md", "x1\nx2\nx3\nz4\n")]⟩ : FS)
      ["a.md", "b.md"]).1 (by decide)
  · exact (dup_minimum_props
      (⟨[("a.md", "x1\nx2\nx3\nx4\nq1\n"), ("b.md", "x1\nx2\nx3\nx4\nq2\n"),
        ("tiny.md", "t1\nt2\n")]⟩ : FS)
      ["a.md", "b.md"]).2.1 ["a.md", "b.md"] (by decide) (by decide)
      (by decide)
  · exact (dup_minimum_props
      (⟨[("a.md", "x1\nx2\nx3\nx4\nq1\n"), ("b.md", "x1\nx2\nx3\nx4\nq2\n"),
        ("tiny.md", "t1\nt2\n")]⟩ : FS)
      ["a.md", "b.md", "tiny.md"]).2.2 "tiny.md" "t1\nt2\n" (by decide)
      (by decide)
